import Mathlib

/-!
Verification of the CSVEditor core (src/core.py and the ledger logic of
src/csveditor.py) against its natural-language specification.

All functions are shallowly embedded over `List Char` (the logical model of
Lean's `String`).  Python `Decimal` values are modelled as `ℚ`; a raised
`decimal.InvalidOperation` during parsing is modelled as `Option.none`.
Python's `\s` / `str.strip()` whitespace class is modelled by the ASCII
whitespace characters plus U+00A0 (the only whitespace characters the
program's other code paths can produce or that the spec mentions); other
Unicode whitespace and non-ASCII digits are outside the modelled alphabet.
-/

set_option maxRecDepth 16000

namespace CSVEditor

/-! ## Whitespace and text normalization (src/core.py: norm_spaces) -/

/-- Python whitespace for `\s`, `str.strip()`, `str.split()` restricted to
the Latin-1 range: space, tab, newline, vertical tab, form feed, carriage
return, and U+00A0 (no-break space). -/
def isPySpace (c : Char) : Bool :=
  c = ' ' || c = '\t' || c = '\n' || c = '\x0b' || c = '\x0c' || c = '\r' ||
  c = '\xa0'

/-- Python `str.strip()`: drop leading and trailing whitespace. -/
def pyStrip (l : List Char) : List Char :=
  ((l.dropWhile isPySpace).reverse.dropWhile isPySpace).reverse

/-- `re.sub(r"\s+", " ", s)`: replace every maximal run of whitespace by a
single space.  A whitespace character followed by another whitespace
character is dropped; the last character of a run becomes `' '`. -/
def collapseWS : List Char → List Char
  | [] => []
  | [c] => if isPySpace c then [' '] else [c]
  | c1 :: c2 :: rest =>
    if isPySpace c1 && isPySpace c2 then collapseWS (c2 :: rest)
    else (if isPySpace c1 then ' ' else c1) :: collapseWS (c2 :: rest)

/-- `s.replace(" ", " ")`. -/
def replaceNbsp (l : List Char) : List Char :=
  l.map fun c => if c = '\xa0' then ' ' else c

/-- src/core.py `norm_spaces`: fold NBSP to space, collapse whitespace runs,
strip. -/
def norm_spaces (l : List Char) : List Char :=
  pyStrip (collapseWS (replaceNbsp l))

/-! ## Amount parsing (src/core.py: parse_decimal, money2) -/

/-- `str.rfind(c)`: index of the last occurrence, `-1` when absent. -/
def rfindPos : List Char → Char → Int
  | [], _ => -1
  | a :: as', c =>
    let r := rfindPos as' c
    if r ≥ 0 then r + 1 else if a = c then 0 else -1

/-- `re.sub(r"[^\d\-,.]", "", s)`: keep only digits, `-`, `,`, `.`. -/
def stripSymbols (l : List Char) : List Char :=
  l.filter fun c => c.isDigit || c = '-' || c = ',' || c = '.'

/-- The comma/period disambiguation block of `parse_decimal`
(src/core.py lines 32-41), verbatim: if both separators occur, compare the
positions of the last occurrences; otherwise a lone comma becomes the
decimal point. -/
def sepNormalize (l : List Char) : List Char :=
  if ',' ∈ l ∧ '.' ∈ l then
    if rfindPos l ',' > rfindPos l '.' then
      (l.filter (· ≠ '.')).map (fun c => if c = ',' then '.' else c)
    else
      l.filter (· ≠ ',')
  else if ',' ∈ l then
    l.map (fun c => if c = ',' then '.' else c)
  else l

/-- Numeric value of a digit string (most significant first). -/
def digitsVal (l : List Char) : Nat :=
  l.foldl (fun acc c => acc * 10 + (c.toNat - 48)) 0

/-- Unsigned part of Python's `Decimal(<string>)` literal syntax restricted
to the alphabet reachable here (digits and at most one `.`): `digits`,
`digits.digits?`, `.digits`, with at least one digit overall. -/
def decLitUnsigned (l : List Char) : Option ℚ :=
  match l.dropWhile Char.isDigit with
  | [] =>
    if l.takeWhile Char.isDigit = [] then none
    else some (digitsVal (l.takeWhile Char.isDigit))
  | c :: frac =>
    if c = '.' ∧ frac.all Char.isDigit ∧
        (l.takeWhile Char.isDigit ≠ [] ∨ frac ≠ []) then
      some ((digitsVal (l.takeWhile Char.isDigit) : ℚ) +
        (digitsVal frac : ℚ) / (10 : ℚ) ^ frac.length)
    else none

/-- Python `Decimal(<string>)` on the cleaned alphabet; `none` models a
raised `decimal.InvalidOperation`. -/
def decLit (l : List Char) : Option ℚ :=
  match l with
  | [] => decLitUnsigned []
  | c :: rest =>
    if c = '-' then (decLitUnsigned rest).map (fun q => -q)
    else if c = '+' then decLitUnsigned rest
    else decLitUnsigned (c :: rest)

/-- src/core.py `parse_decimal`: strip, early-return 0 on empty, drop
non-numeric symbols, disambiguate separators, and parse as an exact
decimal.  `none` models a raised `InvalidOperation`. -/
def parse_decimal (l : List Char) : Option ℚ :=
  let s := pyStrip l
  if s = [] then some 0
  else decLit (sepNormalize (stripSymbols s))

/-- `ROUND_HALF_UP` to an integer: round to nearest, ties away from zero. -/
def roundHalfUp (q : ℚ) : ℤ :=
  if 0 ≤ q then ⌊q + 1/2⌋ else -⌊-q + 1/2⌋

/-- src/core.py `money2`: quantize to two fractional digits, half-up. -/
def money2 (q : ℚ) : ℚ :=
  (roundHalfUp (q * 100) : ℚ) / 100

/-- A value that is an exact multiple of one cent (the form every `money2`
output takes). -/
def Cents (q : ℚ) : Prop := ∃ n : ℤ, q = (n : ℚ) / 100

/-! ## Date parsing (src/core.py: normalize_date, date_key)

`datetime.strptime` is modelled by its CPython implementation: each format
directive compiles to a regular expression (`%Y` = exactly four digits,
`%y` = exactly two digits, `%m` = one or two digits with value 1..12,
`%d` = one or two digits with value 1..31) joined by the literal
separators, matched against the whole string; the resulting numbers must
then form a real calendar date (`datetime(y, m, d)` also requires
`1 ≤ y ≤ 9999`).  Since the directives match only digits and every
candidate format uses a single separator character, full-string regex
matching is equivalent to splitting on the separator and matching each
part exactly.

`dt.strftime("%Y/%m/%d")` is modelled as on CPython/glibc (the platform
this program and this development run on): `%m` and `%d` are zero-padded
to two digits, while `%Y` prints the year as a plain decimal number with
no padding — so years below 1000 are rendered with fewer than four
digits (e.g. `datetime(5,1,2).strftime("%Y/%m/%d") = "5/01/02"`). -/

/-- Split on every occurrence of a separator character, keeping empty
parts (Python `str.split(sep)` / regex alternation over a literal). -/
def splitOnChar (sep : Char) : List Char → List Char → List (List Char)
  | cur, [] => [cur.reverse]
  | cur, c :: rest =>
    if c = sep then cur.reverse :: splitOnChar sep [] rest
    else splitOnChar sep (c :: cur) rest

/-- One- or two-digit numeric field of `strptime` (`%m`, `%d`):
all digits, length 1 or 2, value within `lo..hi` (which excludes `"0"` and
`"00"` since `lo ≥ 1`). -/
def numTok (lo hi : Nat) (t : List Char) : Option Nat :=
  if t.all Char.isDigit ∧ (t.length = 1 ∨ t.length = 2) ∧
      lo ≤ digitsVal t ∧ digitsVal t ≤ hi then
    some (digitsVal t)
  else none

/-- `%Y`: exactly four digits. -/
def year4Tok (t : List Char) : Option Nat :=
  if t.all Char.isDigit ∧ t.length = 4 then some (digitsVal t) else none

/-- `%y`: exactly two digits; 00-68 maps to 2000-2068, 69-99 to 1969-1999. -/
def year2Tok (t : List Char) : Option Nat :=
  if t.all Char.isDigit ∧ t.length = 2 then
    some (if digitsVal t ≤ 68 then 2000 + digitsVal t else 1900 + digitsVal t)
  else none

def isLeap (y : Nat) : Bool :=
  y % 4 = 0 && (y % 100 ≠ 0 || y % 400 = 0)

def daysInMonth (y m : Nat) : Nat :=
  if m = 2 then (if isLeap y then 29 else 28)
  else if m = 4 ∨ m = 6 ∨ m = 9 ∨ m = 11 then 30
  else 31

structure YMD where
  y : Nat
  m : Nat
  d : Nat
deriving DecidableEq

/-- The `datetime(y, m, d)` constructor checks. -/
def validYMD (v : YMD) : Bool :=
  1 ≤ v.y && v.y ≤ 9999 && 1 ≤ v.m && v.m ≤ 12 && 1 ≤ v.d &&
  v.d ≤ daysInMonth v.y v.m

/-- Field roles of the three-part candidate formats of `normalize_date`. -/
inductive Fld | y4 | y2 | mo | dy
deriving DecidableEq

def parseFld (f : Fld) (t : List Char) : Option Nat :=
  match f with
  | .y4 => year4Tok t
  | .y2 => year2Tok t
  | .mo => numTok 1 12 t
  | .dy => numTok 1 31 t

/-- A candidate `strptime` format: three fields joined by one separator. -/
structure Cand where
  f1 : Fld
  f2 : Fld
  f3 : Fld
  sep : Char

def assemble (f : Fld) (n : Nat) (v : YMD) : YMD :=
  match f with
  | .y4 => { v with y := n }
  | .y2 => { v with y := n }
  | .mo => { v with m := n }
  | .dy => { v with d := n }

/-- `datetime.strptime(s, fmt)` for a three-field single-separator format,
followed by the `datetime` constructor's calendar-validity check. -/
def parseCand (c : Cand) (s : List Char) : Option YMD :=
  match splitOnChar c.sep [] s with
  | [a, b, d] =>
    match parseFld c.f1 a, parseFld c.f2 b, parseFld c.f3 d with
    | some n1, some n2, some n3 =>
      let v := assemble c.f3 n3 (assemble c.f2 n2 (assemble c.f1 n1 ⟨1900, 1, 1⟩))
      if validYMD v then some v else none
    | _, _, _ => none
  | _ => none

/-- The candidate list of src/core.py `normalize_date`, in source order:
`%Y/%m/%d`, `%Y-%m-%d`, `%Y.%m.%d`, `%d/%m/%Y`, `%d-%m-%Y`, `%d.%m.%Y`,
`%d/%m/%y`, `%d-%m-%y`, `%d.%m.%y`, `%m/%d/%Y`, `%m-%d-%Y`. -/
def candidates : List Cand :=
  [⟨.y4, .mo, .dy, '/'⟩, ⟨.y4, .mo, .dy, '-'⟩, ⟨.y4, .mo, .dy, '.'⟩,
   ⟨.dy, .mo, .y4, '/'⟩, ⟨.dy, .mo, .y4, '-'⟩, ⟨.dy, .mo, .y4, '.'⟩,
   ⟨.dy, .mo, .y2, '/'⟩, ⟨.dy, .mo, .y2, '-'⟩, ⟨.dy, .mo, .y2, '.'⟩,
   ⟨.mo, .dy, .y4, '/'⟩, ⟨.mo, .dy, .y4, '-'⟩]

/-- `datetime.strptime(s, "%Y%m%d")` on an 8-digit string: greedy regex
matching forces the 4+2+2 split of the digits. -/
def parse8 (s : List Char) : Option YMD :=
  match s with
  | [a, b, c, d, e, f, g, h] =>
    match year4Tok [a, b, c, d], numTok 1 12 [e, f], numTok 1 31 [g, h] with
    | some y, some m, some dd =>
      let v : YMD := ⟨y, m, dd⟩
      if validYMD v then some v else none
    | _, _, _ => none
  | _ => none

/-- The character of a decimal digit. -/
def digitChar (d : Nat) : Char := Char.ofNat (48 + d)

/-- Fuel-driven digit rendering (structural recursion so that the kernel
can evaluate it; `natStr` always supplies enough fuel). -/
def natStrAux : Nat → Nat → List Char
  | 0, n => [digitChar n]
  | fuel + 1, n =>
    if n < 10 then [digitChar n]
    else natStrAux fuel (n / 10) ++ [digitChar (n % 10)]

/-- Decimal digits of a natural number, no padding (`str(n)` / glibc `%Y`). -/
def natStr (n : Nat) : List Char := natStrAux n n

/-- Two-digit zero-padded rendering (glibc `%m`, `%d`; argument < 100). -/
def pad2 (n : Nat) : List Char :=
  [digitChar (n / 10 % 10), digitChar (n % 10)]

/-- `dt.strftime("%Y/%m/%d")` on CPython/glibc: unpadded year, two-digit
month and day. -/
def fmtDate (v : YMD) : List Char :=
  natStr v.y ++ '/' :: pad2 v.m ++ '/' :: pad2 v.d

/-- src/core.py `normalize_date`: normalize whitespace, try the candidate
formats in order, then the 8-digit fallback; re-serialize on success,
empty on failure. -/
def normalize_date (l : List Char) : List Char :=
  let s := norm_spaces l
  if s = [] then []
  else
    match candidates.findSome? (fun c => parseCand c s) with
    | some v => fmtDate v
    | none =>
      if s.length = 8 ∧ s.all Char.isDigit then
        match parse8 s with
        | some v => fmtDate v
        | none => []
      else []

/-- src/core.py `date_key`: parseable dates rank 0 with their canonical
string, unparseable rank 1 with a maximal sentinel. -/
def date_key (l : List Char) : Nat × List Char :=
  let d := normalize_date l
  if d = [] then (1, "9999/99/99".data) else (0, d)

/-! ## Line tokenizer (src/core.py: try_parse_line) -/

structure Transaction where
  date : List Char
  description : List Char
  amount : ℚ
deriving DecidableEq

/-- Outcome of running a Python function that may let an exception escape:
`ok` is a normal return, `raised` an uncaught exception. -/
inductive PyResult (α : Type) where
  | ok (a : α)
  | raised
deriving DecidableEq

/-- States of the `csv.reader` field scanner (excel dialect, non-strict,
delimiter `,`, quote `"`, doublequote on). -/
inductive CsvSt | startField | inField | inQuoted | quoteInQuoted

/-- One record of `csv.reader` (excel dialect, non-strict) over a single
line: split on unquoted commas, `"`-quoting with `""` escapes, characters
after a closing quote appended to the field (non-strict behaviour), an
unterminated quote yielding the partial field. -/
def csvScan (st : CsvSt) (cur : List Char) : List Char → List (List Char)
  | [] =>
    match st with
    | .startField => [[]]
    | _ => [cur.reverse]
  | c :: rest =>
    match st with
    | .startField =>
      if c = '"' then csvScan .inQuoted cur rest
      else if c = ',' then [] :: csvScan .startField [] rest
      else csvScan .inField (c :: cur) rest
    | .inField =>
      if c = ',' then cur.reverse :: csvScan .startField [] rest
      else csvScan .inField (c :: cur) rest
    | .inQuoted =>
      if c = '"' then csvScan .quoteInQuoted cur rest
      else csvScan .inQuoted (c :: cur) rest
    | .quoteInQuoted =>
      if c = '"' then csvScan .inQuoted ('"' :: cur) rest
      else if c = ',' then cur.reverse :: csvScan .startField [] rest
      else csvScan .inField (c :: cur) rest

/-- `next(csv.reader([raw]))` for a non-empty single line. -/
def csvSplit (l : List Char) : List (List Char) :=
  csvScan .startField [] l

/-- `re.split(r"\s{2,}", raw)`: runs of two or more whitespace characters
are delimiters; a single whitespace character stays in the token.
`cur` and `pend` (the pending whitespace run) are accumulated reversed. -/
def splitWS2Aux (cur pend : List Char) : List Char → List (List Char)
  | [] =>
    if pend.length ≥ 2 then [cur.reverse, []] else [(pend ++ cur).reverse]
  | c :: rest =>
    if isPySpace c then splitWS2Aux cur (c :: pend) rest
    else if pend.length ≥ 2 then cur.reverse :: splitWS2Aux [c] [] rest
    else splitWS2Aux (c :: (pend ++ cur)) [] rest

def splitWS2 (l : List Char) : List (List Char) :=
  splitWS2Aux [] [] l

/-- Python `str.split()` with no argument: split on whitespace runs,
discarding empty tokens. -/
def pySplit (cur : List Char) : List Char → List (List Char)
  | [] => if cur = [] then [] else [cur.reverse]
  | c :: rest =>
    if isPySpace c then
      if cur = [] then pySplit [] rest else cur.reverse :: pySplit [] rest
    else pySplit (c :: cur) rest

/-- `" ".join(toks)`. -/
def joinSpace : List (List Char) → List Char
  | [] => []
  | [t] => t
  | t :: rest => t ++ ' ' :: joinSpace rest

/-- src/core.py `try_parse_line`.  The four strategies in source order:
1. comma-separated record (`csv.reader`), with `ValueError`,
   `ArithmeticError` and `csv.Error` caught (so a failed amount parse
   falls through);
2. tab split — the amount parse here is NOT inside any try/except, so a
   failed amount parse escapes as an uncaught exception (`raised`);
3. split on runs of two or more whitespace characters — likewise
   unprotected;
4. whitespace tokens, first = date, last = amount, middle = description,
   with `ArithmeticError`/`ValueError` caught.
`parse_decimal = none` models the raised `InvalidOperation`. -/
def try_parse_line (line : List Char) : PyResult (Option Transaction) :=
  let raw := pyStrip line
  if raw = [] then .ok none
  else
    -- strategy 1: csv
    let s1 :=
      let row := csvSplit raw
      if h : row.length ≥ 3 then
        let d := normalize_date row[0]
        if d ≠ [] then
          match parse_decimal row[2] with
          | some q => some (Transaction.mk d (norm_spaces row[1]) (money2 q))
          | none => none  -- InvalidOperation caught by the except clause
        else none
      else none
    match s1 with
    | some t => .ok (some t)
    | none =>
      -- strategy 2: tab split (amount parse unprotected)
      let parts := ((splitOnChar '\t' [] raw).map pyStrip).filter (· ≠ [])
      let s2 : Option (PyResult (Option Transaction)) :=
        if h : parts.length ≥ 3 then
          let d := normalize_date parts[0]
          if d ≠ [] then
            match parse_decimal parts[2] with
            | some q => some (.ok (some (Transaction.mk d (norm_spaces parts[1]) (money2 q))))
            | none => some .raised
          else none
        else none
      match s2 with
      | some r => r
      | none =>
        -- strategy 3: multi-space split (amount parse unprotected)
        let parts := splitWS2 raw
        let s3 : Option (PyResult (Option Transaction)) :=
          if h : parts.length ≥ 3 then
            let d := normalize_date parts[0]
            if d ≠ [] then
              match parse_decimal parts[2] with
              | some q => some (.ok (some (Transaction.mk d (norm_spaces parts[1]) (money2 q))))
              | none => some .raised
            else none
          else none
        match s3 with
        | some r => r
        | none =>
          -- strategy 4: token split, exceptions caught
          let toks := pySplit [] raw
          if h : toks.length ≥ 3 then
            let d := normalize_date toks[0]
            if d ≠ [] then
              match parse_decimal (toks.getLast (by
                  intro hnil; rw [hnil] at h; simp at h)) with
              | some q =>
                .ok (some (Transaction.mk d
                  (norm_spaces (joinSpace (toks.drop 1 |>.dropLast))) (money2 q)))
              | none => .ok none  -- caught, falls to the final return None
            else .ok none
          else .ok none

/-! ## Ledger model (src/csveditor.py: class FastEntry)

The table state is modelled by the per-row data the code itself snapshots
in `capture_state`: row id (`UserRole`), canonical date (`UserRole + 1`),
description text, category text, and amount cell text.  GUI-only state
(filters, colors, running-balance column, autocomplete dictionary, focus,
status text, the opening/target/current-date line edits) is omitted; the
operations below take the relevant text-field contents as arguments.
`auto_sort` is modelled in its default enabled state and the date display
format in its default `YYYY/MM/DD` (so `display_to_canonical_date` is
`normalize_date` after stripping). -/

/-- Insert into a sorted list before the first element not below `a`. -/
def sortedInsert (le : α → α → Bool) (a : α) : List α → List α
  | [] => [a]
  | b :: l => if le a b then a :: b :: l else b :: sortedInsert le a l

/-- Stable sort by a total transitive comparator (the specification of
Python's stable `list.sort`; any two stable sorts agree, so insertion
sort models it faithfully). -/
def stableSort (le : α → α → Bool) (l : List α) : List α :=
  l.foldr (sortedInsert le) []

structure Row where
  id : Nat
  date : List Char
  desc : List Char
  cat : List Char
  amt : List Char
deriving DecidableEq

/-- Lexicographic code-point order on strings (Python `str` `<`). -/
def strLt : List Char → List Char → Bool
  | [], [] => false
  | [], _ :: _ => true
  | _ :: _, [] => false
  | a :: as', b :: bs =>
    if a.toNat < b.toNat then true
    else if b.toNat < a.toNat then false
    else strLt as' bs

/-- Python tuple order on the sort key `(date_key(date), id)` used by
`sort_by_date_if_enabled` (every modelled row has an id, so the
`10**12` default for a missing id never applies). -/
def rowLe (a b : Row) : Bool :=
  if (date_key a.date).1 < (date_key b.date).1 then true
  else if (date_key b.date).1 < (date_key a.date).1 then false
  else if strLt (date_key a.date).2 (date_key b.date).2 then true
  else if strLt (date_key b.date).2 (date_key a.date).2 then false
  else a.id ≤ b.id

/-- `f"{d:.2f}"` / `str(d)` for a two-decimal `Decimal`, rendered from its
integer number of cents. -/
def format2Int (n : ℤ) : List Char :=
  (if n < 0 then ['-'] else []) ++ natStr (n.natAbs / 100) ++ '.' :: pad2 (n.natAbs % 100)

/-- Rendering of a quantized amount (two fractional digits). -/
def format2Q (q : ℚ) : List Char :=
  format2Int (roundHalfUp (q * 100))

/-- `FastEntry.insert_row`: append a row re-deriving every field —
canonical date (falling back to the raw text when unparseable),
whitespace-normalized description and category, and the amount re-parsed,
quantized and re-rendered (`Decimal("0.00")` when parsing raises). -/
def insert_row (rows : List Row) (d desc cat amtTxt : List Char) (rowId : Nat) :
    List Row :=
  rows ++ [{ id := rowId
             date := let c := normalize_date d; if c = [] then d else c
             desc := norm_spaces desc
             cat := norm_spaces cat
             amt := format2Q (money2 ((parse_decimal amtTxt).getD 0)) }]

/-- The row `insert_row` would append from a row's captured fields (the
transformation every re-insertion — sorting, undo restore, session load —
applies). -/
def reinsertRow (r : Row) : Row :=
  { id := r.id
    date := let c := normalize_date r.date; if c = [] then r.date else c
    desc := norm_spaces r.desc
    cat := norm_spaces r.cat
    amt := format2Q (money2 ((parse_decimal r.amt).getD 0)) }

/-- `FastEntry.sort_by_date_if_enabled` with auto-sort on: read every
row's fields, stable-sort by `(date_key(date), id)`, and re-insert each
row in order (re-running `insert_row`'s normalization). -/
def sortRows (rows : List Row) : List Row :=
  (stableSort rowLe rows).map reinsertRow

/-- Python `str.lower()` (ASCII range, which is all the claims exercise). -/
def lowerL (l : List Char) : List Char :=
  l.map Char.toLower

/-- `FastEntry.is_duplicate`: an existing row matches on stored canonical
date, case-folded whitespace-normalized description and category, and
exactly equal re-parsed quantized amount. -/
def is_duplicate (rows : List Row) (d desc cat : List Char) (amt : ℚ) : Bool :=
  let dl := lowerL (norm_spaces desc)
  let cl := lowerL (norm_spaces cat)
  rows.any fun r =>
    r.date = d && lowerL (norm_spaces r.desc) = dl &&
    lowerL (norm_spaces r.cat) = cl &&
    decide (money2 ((parse_decimal r.amt).getD 0) = amt)

/-- A `capture_state` snapshot: the identity counter and the row list. -/
abbrev Snap := Nat × List Row

structure St where
  nextId : Nat
  rows : List Row
  undoStack : List Snap
  redoStack : List Snap
deriving DecidableEq

/-- `FastEntry.push_undo_snapshot`: append the current capture, trim the
stack to its last 100 entries, clear the redo stack. -/
def pushUndo (s : St) : St :=
  let l := s.undoStack ++ [(s.nextId, s.rows)]
  { s with undoStack := if l.length > 100 then l.drop (l.length - 100) else l
           redoStack := [] }

/-- `FastEntry.restore_state`: set the counter from the snapshot
(`int(... or 1)` turns 0 into 1), re-insert every captured row, re-sort. -/
def restoreSnap (p : Snap) (undo redo : List Snap) : St :=
  { nextId := if p.1 = 0 then 1 else p.1
    rows := sortRows (p.2.map reinsertRow)
    undoStack := undo
    redoStack := redo }

/-- `FastEntry.undo`: needs at least two snapshots; pops the current one
onto the redo stack and restores the one beneath it. -/
def undoOp (s : St) : St :=
  if s.undoStack.length < 2 then s
  else
    match s.undoStack.getLast?, s.undoStack.dropLast.getLast? with
    | some cur, some prev =>
      restoreSnap prev s.undoStack.dropLast (s.redoStack ++ [cur])
    | _, _ => s

/-- `FastEntry.redo`: pops the last redone snapshot back onto the undo
stack and restores it. -/
def redoOp (s : St) : St :=
  match s.redoStack.getLast? with
  | none => s
  | some nxt => restoreSnap nxt (s.undoStack ++ [nxt]) s.redoStack.dropLast

/-- Operator-facing questions the GUI can raise (`QMessageBox.question`). -/
inductive Prompt
  | dupQuestion
  | importPreview
  | confirmDelete
deriving DecidableEq

/-- `FastEntry.add_current_row`: validate date/description/amount, warn on
duplicate (insert only if the operator answers yes), then snapshot,
assign the next id, insert and re-sort. -/
def add_current_row (s : St) (dateTxt descTxt catTxt amtTxt : List Char)
    (dupYes : Bool) : St × List Prompt :=
  let d := normalize_date (pyStrip dateTxt)
  if d = [] then (s, [])
  else
    let desc := norm_spaces descTxt
    if desc = [] then (s, [])
    else
      let cat := norm_spaces catTxt
      match parse_decimal (pyStrip amtTxt) with
      | none => (s, [])
      | some q =>
        let amt := money2 q
        let isDup := is_duplicate s.rows d desc cat amt
        if isDup ∧ ¬dupYes then (s, [.dupQuestion])
        else
          let s1 := pushUndo s
          let rows' := insert_row s1.rows d desc cat (format2Q amt) s1.nextId
          ({ nextId := s1.nextId + 1
             rows := sortRows rows'
             undoStack := s1.undoStack
             redoStack := s1.redoStack },
           if isDup then [.dupQuestion] else [])

/-- The preview-building loop of `import_paste`: parse each non-blank
line, counting unparseable ones, threading the last seen date (a raising
`try_parse_line` escapes and aborts the whole import). -/
def buildPreview (ls : List (List Char)) (last : List Char)
    (acc : List (List Char × List Char × ℚ)) (sk : Nat) :
    PyResult (List (List Char × List Char × ℚ) × Nat × List Char) :=
  match ls with
  | [] => .ok (acc.reverse, sk, last)
  | ln :: rest =>
    match try_parse_line ln with
    | .raised => .raised
    | .ok none => buildPreview rest last acc (sk + 1)
    | .ok (some t) =>
      let d := if t.date = [] then last else t.date
      if d = [] then buildPreview rest last acc (sk + 1)
      else buildPreview rest d ((d, t.description, t.amount) :: acc) sk

/-- The post-confirmation insertion loop of `import_paste`: each preview
row is either silently skipped as a duplicate (counted in `dup`) or
inserted with a fresh id (counted in `ok`); no per-row question is
asked. -/
def importLoop (rows : List Row) (nid ok dup : Nat) :
    List (List Char × List Char × ℚ) → List Row × Nat × Nat × Nat
  | [] => (rows, nid, ok, dup)
  | (d, desc, amt) :: rest =>
    if is_duplicate rows d desc [] amt then
      importLoop rows nid ok (dup + 1) rest
    else
      importLoop (insert_row rows d desc [] (format2Q amt) nid) (nid + 1)
        (ok + 1) dup rest

/-- The tail of `import_paste` after the preview is built: empty preview
returns quietly; otherwise one batch-level confirmation is asked, then the
insertion loop runs and the table is re-sorted. -/
def paste_finish (s : St) (confirmYes : Bool) :
    PyResult (List (List Char × List Char × ℚ) × Nat × List Char) →
    PyResult (St × List Prompt × Nat × Nat × Nat)
  | .raised => .raised
  | .ok (preview, skipped, _) =>
    if preview = [] then .ok (s, [], 0, 0, skipped)
    else if ¬confirmYes then .ok (s, [.importPreview], 0, 0, skipped)
    else
      let s1 := pushUndo s
      let r := importLoop s1.rows s1.nextId 0 0 preview
      .ok ({ nextId := r.2.1
             rows := sortRows r.1
             undoStack := s1.undoStack
             redoStack := s1.redoStack },
           [.importPreview], r.2.2.1, r.2.2.2, skipped)

/-- `FastEntry.import_paste`: split the paste into non-blank lines, build
the preview (`skipped` = unparseable lines; a raising `try_parse_line`
aborts the import), then `paste_finish`.  Returns the new state, the
prompts shown, and the `(ok, dup, skipped)` counts. -/
def paste_import (s : St) (text curDateTxt : List Char) (confirmYes : Bool) :
    PyResult (St × List Prompt × Nat × Nat × Nat) :=
  if pyStrip text = [] then .ok (s, [], 0, 0, 0)
  else
    let lines := (splitOnChar '
' [] text).filter (fun ln => pyStrip ln ≠ [])
    let last0 := if pyStrip curDateTxt ≠ [] then normalize_date curDateTxt else []
    paste_finish s confirmYes (buildPreview lines last0 [] 0)

/-- Remove the table row at an index. -/
def removeAt (l : List Row) (i : Nat) : List Row :=
  l.take i ++ l.drop (i + 1)

/-- `FastEntry.delete_selected`: confirm, snapshot, then remove the
selected indices in descending order. -/
def delete_selected (s : St) (sel : List Nat) (confirmYes : Bool) :
    St × List Prompt :=
  let idxs := stableSort (fun a b => decide (b ≤ a))
    (sel.eraseDups.filter (· < s.rows.length))
  if idxs = [] then (s, [])
  else if ¬confirmYes then (s, [.confirmDelete])
  else
    let s1 := pushUndo s
    ({ s1 with rows := idxs.foldl removeAt s1.rows }, [.confirmDelete])

/-- `FastEntry.duplicate_selected`: snapshot, then re-insert a copy of
each selected row (ascending index order) with a fresh id, and re-sort. -/
def duplicate_selected (s : St) (sel : List Nat) : St × List Prompt :=
  let idxs := stableSort (fun a b => decide (a ≤ b))
    (sel.eraseDups.filter (· < s.rows.length))
  if idxs = [] then (s, [])
  else
    let s1 := pushUndo s
    let r := idxs.foldl
      (fun (p : List Row × Nat) i =>
        match s.rows[i]? with
        | some row => (insert_row p.1 row.date row.desc row.cat row.amt p.2, p.2 + 1)
        | none => p)
      (s1.rows, s1.nextId)
    ({ nextId := r.2
       rows := sortRows r.1
       undoStack := s1.undoStack
       redoStack := s1.redoStack }, [])

/-- A row record of a persisted session file. -/
structure SRow where
  id : Nat
  date : List Char
  desc : List Char
  cat : List Char
  amt : List Char

/-- A persisted session: the stored next-identity value (0 when missing or
zero in the file) and the row records. -/
structure Session where
  fileNext : Nat
  rows : List SRow

/-- The row loop of `load_session`: re-normalize every field, assign
`max_id + 1` to rows without a positive stored id, track the maximum id. -/
def loadLoop (rows : List Row) (maxId : Nat) : List SRow → List Row × Nat
  | [] => (rows, maxId)
  | r :: rest =>
    let d2 := let c := normalize_date r.date; if c = [] then r.date else c
    let amt2 := money2 ((parse_decimal r.amt).getD 0)
    let rowId := if r.id > 0 then r.id else maxId + 1
    loadLoop (insert_row rows d2 r.desc r.cat (format2Q amt2) rowId)
      (max maxId rowId) rest

/-- `FastEntry.load_session`: replace the table with the re-normalized
file rows, set the counter to `max(file value, max loaded id + 1)`
(missing/zero file value defaults to `max_id + 1`), re-sort, and push an
undo snapshot of the loaded state. -/
def load_session (s : St) (data : Session) : St :=
  let r := loadLoop [] 0 data.rows
  let fileNext := if data.fileNext = 0 then r.2 + 1 else data.fileNext
  pushUndo
    { nextId := max fileNext (r.2 + 1)
      rows := sortRows r.1
      undoStack := s.undoStack
      redoStack := s.redoStack }

/-- The ledger operations of claim C7. -/
inductive Op
  | add (dateTxt descTxt catTxt amtTxt : List Char) (dupYes : Bool)
  | paste (text curDate : List Char) (confirm : Bool)
  | delete (sel : List Nat) (confirm : Bool)
  | dup (sel : List Nat)
  | undo
  | redo
  | load (data : Session)

/-- One operation on the ledger state (`raised` when an uncaught parsing
exception escapes `import_paste`). -/
def step (o : Op) (s : St) : PyResult St :=
  match o with
  | .add a b c d yes => .ok (add_current_row s a b c d yes).1
  | .paste t c yes =>
    match paste_import s t c yes with
    | .ok r => .ok r.1
    | .raised => .raised
  | .delete sel yes => .ok (delete_selected s sel yes).1
  | .dup sel => .ok (duplicate_selected s sel).1
  | .undo => .ok (undoOp s)
  | .redo => .ok (redoOp s)
  | .load data => .ok (load_session s data)

/-- Run a sequence of operations, stopping at an uncaught exception. -/
def runOps : List Op → St → PyResult St
  | [], s => .ok s
  | o :: rest, s =>
    match step o s with
    | .ok s' => runOps rest s'
    | .raised => .raised

/-- The state right after `FastEntry.__init__`: empty table, counter 1,
one initial undo snapshot. -/
def initSt : St :=
  { nextId := 1, rows := [], undoStack := [(1, [])], redoStack := [] }

/-! ## Running balances (src/csveditor.py: update_running_balances,
recompute_dynamic_closing) -/

/-- The accumulator of `update_running_balances`: seed with the quantized
opening balance, then `running = money2(running + amt)` over the rows in
table order; `runningFinal` is the last balance (the dynamic closing). -/
def runningFinal (opening : ℚ) (amts : List ℚ) : ℚ :=
  amts.foldl (fun b a => money2 (b + a)) (money2 opening)

/-! ## Auxiliary definitions used only to state the claims -/

/-- Four-digit zero-padded rendering (argument < 10000). -/
def pad4 (n : Nat) : List Char :=
  [digitChar (n / 1000 % 10), digitChar (n / 100 % 10),
   digitChar (n / 10 % 10), digitChar (n % 10)]

/-- The zero-padded canonical `YYYY/MM/DD` form the specification's
glossary promises for every normalized date. -/
def zeroPadDate (v : YMD) : List Char :=
  pad4 v.y ++ '/' :: pad2 v.m ++ '/' :: pad2 v.d

/-- Modelled from the spec: "If both `,` and `.` occur, the separator
occurring later in the string is the decimal separator; the earlier one is
a thousands separator and is removed; the later one is rewritten as `.`."
The later separator is the first separator of the reversed string. -/
def specLastSepRewrite (l : List Char) : List Char :=
  match l.reverse.find? (fun c => c = ',' || c = '.') with
  | some c =>
    if c = ',' then (l.filter (· ≠ '.')).map (fun c => if c = ',' then '.' else c)
    else if c = '.' then l.filter (· ≠ ',')
    else l
  | none => l

/-- Identity counter of an operation outcome (0 after an exception). -/
def nextIdOf : PyResult St → Nat
  | .ok s => s.nextId
  | .raised => 0

/-- Row ids of an operation outcome, in table order. -/
def rowIdsOf : PyResult St → List Nat
  | .ok s => s.rows.map Row.id
  | .raised => []

/-- Prompts shown by a `paste_import` run (none after an exception). -/
def pastePrompts : PyResult (St × List Prompt × Nat × Nat × Nat) → List Prompt
  | .ok r => r.2.1
  | .raised => []

/-- `(imported, duplicates-skipped, parse-skipped)` counts of a
`paste_import` run. -/
def pasteCounts : PyResult (St × List Prompt × Nat × Nat × Nat) → Nat × Nat × Nat
  | .ok r => r.2.2
  | .raised => (0, 0, 0)

/-- Row ids after a `paste_import` run. -/
def pasteRowIds : PyResult (St × List Prompt × Nat × Nat × Nat) → List Nat
  | .ok r => r.1.rows.map Row.id
  | .raised => []

/-- The operations that do not restore a snapshot or replace the table
from a file: row add, bulk paste import, delete, duplicate. -/
def nonRestoring : Op → Prop
  | .add _ _ _ _ _ => True
  | .paste _ _ _ => True
  | .delete _ _ => True
  | .dup _ => True
  | .undo => False
  | .redo => False
  | .load _ => False

/-- All whitespace in the list is the plain space character (used to state
the idempotence argument for `norm_spaces`). -/
def WSP (l : List Char) : Prop := ∀ c ∈ l, isPySpace c = true → c = ' '

/-- No two adjacent whitespace characters. -/
def NoAdj (l : List Char) : Prop :=
  List.Chain' (fun a b => ¬(isPySpace a = true ∧ isPySpace b = true)) l

/-- A concrete existing row: a coffee purchase already in the table. -/
def r6 : Row :=
  { id := 1, date := "2025/01/10".data, desc := "Coffee".data, cat := [],
    amt := "-3.50".data }

/-- A ledger state holding `r6` with the next identity at 2. -/
def st6 : St :=
  { nextId := 2, rows := [r6], undoStack := [(1, [])], redoStack := [] }

/-! ## Helper lemmas: digits and renderings -/

theorem digitChar_spec {d : Nat} (h : d < 10) :
    (digitChar d).isDigit = true ∧ isPySpace (digitChar d) = false ∧
    (digitChar d).toNat = 48 + d ∧ digitChar d ≠ '/' ∧ digitChar d ≠ '-' ∧
    digitChar d ≠ '.' ∧ digitChar d ≠ ',' ∧ digitChar d ≠ '\xa0' := by
  interval_cases d <;> decide

theorem digitsVal_append (l : List Char) (c : Char) :
    digitsVal (l ++ [c]) = digitsVal l * 10 + (c.toNat - 48) := by
  simp [digitsVal, List.foldl_append]

theorem pad2_digits {n : Nat} : ∀ c ∈ pad2 n, c.isDigit = true := by
  intro c hc
  simp [pad2] at hc
  rcases hc with h | h <;> subst h
  · exact (digitChar_spec (Nat.mod_lt _ (by omega))).1
  · exact (digitChar_spec (Nat.mod_lt _ (by omega))).1

theorem digitsVal_pad2 {n : Nat} (h : n < 100) : digitsVal (pad2 n) = n := by
  have h1 : n / 10 % 10 < 10 := Nat.mod_lt _ (by omega)
  have h2 : n % 10 < 10 := Nat.mod_lt _ (by omega)
  simp [pad2, digitsVal, (digitChar_spec h1).2.2.1, (digitChar_spec h2).2.2.1]
  omega

theorem pad2_length (n : Nat) : (pad2 n).length = 2 := rfl

theorem natStrAux_ok : ∀ (fuel n : Nat), n < 10 ^ (fuel + 1) →
    (∀ c ∈ natStrAux fuel n, c.isDigit = true) ∧
    digitsVal (natStrAux fuel n) = n ∧ natStrAux fuel n ≠ [] := by
  intro fuel
  induction fuel with
  | zero =>
    intro n h
    simp [pow_succ] at h
    refine ⟨?_, ?_, by simp [natStrAux]⟩
    · intro c hc
      simp [natStrAux] at hc
      subst hc
      exact (digitChar_spec h).1
    · simp [natStrAux, digitsVal, (digitChar_spec h).2.2.1]
  | succ fuel ih =>
    intro n h
    by_cases h10 : n < 10
    · refine ⟨?_, ?_, by simp [natStrAux, h10]⟩
      · intro c hc
        simp [natStrAux, h10] at hc
        subst hc
        exact (digitChar_spec h10).1
      · simp [natStrAux, h10, digitsVal, (digitChar_spec h10).2.2.1]
    · have hdiv : n / 10 < 10 ^ (fuel + 1) := by
        rw [Nat.div_lt_iff_lt_mul (by omega)]
        calc n < 10 ^ (fuel + 1 + 1) := h
        _ = 10 ^ (fuel + 1) * 10 := by ring
      obtain ⟨ihd, ihv, ihne⟩ := ih (n / 10) hdiv
      have hm : n % 10 < 10 := Nat.mod_lt _ (by omega)
      refine ⟨?_, ?_, by simp [natStrAux, h10]⟩
      · intro c hc
        simp [natStrAux, h10] at hc
        rcases hc with hc | hc
        · exact ihd c hc
        · subst hc
          exact (digitChar_spec hm).1
      · simp only [natStrAux, if_neg (by omega : ¬ n < 10)]
        rw [digitsVal_append, ihv, (digitChar_spec hm).2.2.1]
        omega

theorem natStr_ok (n : Nat) :
    (∀ c ∈ natStr n, c.isDigit = true) ∧ digitsVal (natStr n) = n ∧
    natStr n ≠ [] := by
  refine natStrAux_ok n n ?_
  calc n < 10 ^ n := Nat.lt_pow_self (by omega) n
  _ ≤ 10 ^ (n + 1) := Nat.pow_le_pow_right (by omega) (by omega)

/-- Character-class facts about any decimal digit character. -/
theorem isDigit_facts {c : Char} (h : c.isDigit = true) :
    isPySpace c = false ∧ c ≠ '/' ∧ c ≠ '-' ∧ c ≠ '.' ∧ c ≠ ',' ∧
    c ≠ '\xa0' ∧ c ≠ '+' := by
  have hb : 48 ≤ c.toNat ∧ c.toNat ≤ 57 := by
    simp [Char.isDigit, Char.le_def, decide_eq_true_eq] at h
    exact ⟨h.1, h.2⟩
  refine ⟨?_, ?_, ?_, ?_, ?_, ?_, ?_⟩ <;>
    first
      | (simp only [isPySpace, Bool.or_eq_false_iff, decide_eq_false_iff_not]
         refine ⟨⟨⟨⟨⟨⟨?_, ?_⟩, ?_⟩, ?_⟩, ?_⟩, ?_⟩, ?_⟩ <;>
           (intro hc; subst hc; exact absurd h (by decide))
         )
      | (intro hc; subst hc; exact absurd h (by decide))

/-! ## Helper lemmas: splitting and whitespace -/

theorem splitOnChar_no_sep {sep : Char} :
    ∀ (xs acc : List Char), sep ∉ xs →
      splitOnChar sep acc xs = [acc.reverse ++ xs] := by
  intro xs
  induction xs with
  | nil => intro acc _; simp [splitOnChar]
  | cons x tl ih =>
    intro acc h
    have hx : x ≠ sep := fun he => h (he ▸ List.mem_cons_self x tl)
    rw [splitOnChar, if_neg hx, ih _ (fun hm => h (List.mem_cons_of_mem _ hm))]
    simp

theorem splitOnChar_append {sep : Char} :
    ∀ (xs acc ys : List Char), sep ∉ xs →
      splitOnChar sep acc (xs ++ sep :: ys) =
        (acc.reverse ++ xs) :: splitOnChar sep [] ys := by
  intro xs
  induction xs with
  | nil => intro acc ys _; simp [splitOnChar]
  | cons x tl ih =>
    intro acc ys h
    have hx : x ≠ sep := fun he => h (he ▸ List.mem_cons_self x tl)
    rw [List.cons_append, splitOnChar, if_neg hx,
      ih _ _ (fun hm => h (List.mem_cons_of_mem _ hm))]
    simp

theorem takeWhile_all_append {p : Char → Bool} :
    ∀ (xs : List Char) (y : Char) (ys : List Char), (∀ c ∈ xs, p c = true) →
      p y = false →
      (xs ++ y :: ys).takeWhile p = xs ∧ (xs ++ y :: ys).dropWhile p = y :: ys := by
  intro xs
  induction xs with
  | nil =>
    intro y ys _ hy
    simp [List.takeWhile, List.dropWhile, hy]
  | cons x tl ih =>
    intro y ys h hy
    have hx : p x = true := h x (List.mem_cons_self x tl)
    obtain ⟨h1, h2⟩ := ih y ys (fun c hc => h c (List.mem_cons_of_mem _ hc)) hy
    simp [List.takeWhile, List.dropWhile, hx, h1, h2]

theorem takeWhile_of_all {p : Char → Bool} :
    ∀ (xs : List Char), (∀ c ∈ xs, p c = true) →
      xs.takeWhile p = xs ∧ xs.dropWhile p = [] := by
  intro xs
  induction xs with
  | nil => intro _; simp
  | cons x tl ih =>
    intro h
    have hx : p x = true := h x (List.mem_cons_self x tl)
    obtain ⟨h1, h2⟩ := ih (fun c hc => h c (List.mem_cons_of_mem _ hc))
    simp [List.takeWhile, List.dropWhile, hx, h1, h2]

theorem dropWhile_of_none {p : Char → Bool} {l : List Char}
    (h : ∀ c ∈ l, p c = false) : l.dropWhile p = l := by
  cases l with
  | nil => rfl
  | cons x tl => simp [List.dropWhile, h x (List.mem_cons_self x tl)]

theorem pyStrip_of_no_ws {l : List Char}
    (h : ∀ c ∈ l, isPySpace c = false) : pyStrip l = l := by
  unfold pyStrip
  rw [dropWhile_of_none h, dropWhile_of_none (by simpa using h), List.reverse_reverse]

theorem replaceNbsp_of_no_ws :
    ∀ {l : List Char}, (∀ c ∈ l, isPySpace c = false) → replaceNbsp l = l := by
  intro l
  induction l with
  | nil => intro _; rfl
  | cons c tl ih =>
    intro h
    have hc : c ≠ '\xa0' := by
      intro he
      have := h c (List.mem_cons_self c tl)
      rw [he] at this
      exact absurd this (by decide)
    simp only [replaceNbsp, List.map_cons, if_neg hc]
    have := ih (fun x hx => h x (List.mem_cons_of_mem _ hx))
    simp only [replaceNbsp] at this
    rw [this]

theorem collapseWS_of_no_ws :
    ∀ (l : List Char), (∀ c ∈ l, isPySpace c = false) → collapseWS l = l := by
  intro l
  induction l with
  | nil => intro _; rfl
  | cons c tl ih =>
    intro h
    have hc : isPySpace c = false := h c (List.mem_cons_self c tl)
    cases tl with
    | nil => simp [collapseWS, hc]
    | cons c2 rest =>
      have h2 : isPySpace c2 = false :=
        h c2 (List.mem_cons_of_mem _ (List.mem_cons_self c2 rest))
      rw [collapseWS]
      simp only [hc, h2, Bool.false_and, Bool.and_false]
      rw [if_neg (by simp), if_neg (by simp [hc]),
        ih (fun x hx => h x (List.mem_cons_of_mem _ hx))]

theorem norm_spaces_of_no_ws {l : List Char}
    (h : ∀ c ∈ l, isPySpace c = false) : norm_spaces l = l := by
  unfold norm_spaces
  rw [replaceNbsp_of_no_ws h, collapseWS_of_no_ws l h, pyStrip_of_no_ws h]

/-! ## Helper lemmas: date parsing -/

theorem daysInMonth_ge_28 (y m : Nat) : 28 ≤ daysInMonth y m := by
  unfold daysInMonth
  split
  · split <;> omega
  · split <;> omega

/-- Two-digit numeric-field success on a two-digit rendering. -/
theorem numTok_pad2 {lo hi n : Nat} (h100 : n < 100) (hlo : lo ≤ n)
    (hhi : n ≤ hi) : numTok lo hi (pad2 n) = some n := by
  have hcond : (pad2 n).all Char.isDigit = true ∧
      ((pad2 n).length = 1 ∨ (pad2 n).length = 2) ∧
      lo ≤ digitsVal (pad2 n) ∧ digitsVal (pad2 n) ≤ hi :=
    ⟨List.all_eq_true.mpr (fun c hc => pad2_digits c hc),
     Or.inr (pad2_length n),
     by rw [digitsVal_pad2 h100]; omega,
     by rw [digitsVal_pad2 h100]; omega⟩
  unfold numTok
  rw [if_pos hcond, digitsVal_pad2 h100]

/-- `normalize_date` on two two-digit fields and a four-digit year is
decided by the `%d/%m/%Y` candidate whenever both fields could be a
month: the day-first format precedes `%m/%d/%Y` in the candidate list. -/
theorem normalize_date_day_first {a b : Nat} (ha1 : 1 ≤ a) (ha2 : a ≤ 12)
    (hb1 : 1 ≤ b) (hb2 : b ≤ 12) :
    normalize_date (pad2 a ++ ('/' :: (pad2 b ++ ('/' :: "2025".data)))) =
      fmtDate ⟨2025, b, a⟩ := by
  set y4 : List Char := "2025".data with hy4
  set s : List Char := pad2 a ++ ('/' :: (pad2 b ++ ('/' :: y4))) with hs
  have hdig : ∀ c ∈ s, c.isDigit = true ∨ c = '/' := by
    intro c hc
    rw [hs] at hc
    rcases List.mem_append.mp hc with h | h
    · exact Or.inl (pad2_digits c h)
    · rcases h with _ | ⟨_, h⟩
      · exact Or.inr rfl
      · rcases List.mem_append.mp h with h | h
        · exact Or.inl (pad2_digits c h)
        · rcases h with _ | ⟨_, h⟩
          · exact Or.inr rfl
          · have h' : c = '2' ∨ c = '0' ∨ c = '2' ∨ c = '5' := by
              have hm : c ∈ ['2', '0', '2', '5'] := h
              simpa using hm
            left
            rcases h' with rfl | rfl | rfl | rfl <;> decide
  have hnws : ∀ c ∈ s, isPySpace c = false := by
    intro c hc
    rcases hdig c hc with h | h
    · exact (isDigit_facts h).1
    · rw [h]; decide
  have hnssep : ∀ sep : Char, sep ≠ '/' →
      (∀ c : Char, c.isDigit = true → c ≠ sep) → sep ∉ s := by
    intro sep hsep hdsep hmem
    rcases hdig sep hmem with h | h
    · exact hdsep sep h rfl
    · exact hsep h
  have hdashmem : '-' ∉ s :=
    hnssep '-' (by decide) (fun c hc => (isDigit_facts hc).2.2.1)
  have hdotmem : '.' ∉ s :=
    hnssep '.' (by decide) (fun c hc => (isDigit_facts hc).2.2.2.1)
  have hslash_pad : ∀ n : Nat, '/' ∉ pad2 n := by
    intro n hmem
    have := pad2_digits '/' hmem
    exact absurd this (by decide)
  have hsplit : splitOnChar '/' [] s = [pad2 a, pad2 b, y4] := by
    rw [hs, splitOnChar_append _ _ _ (hslash_pad a),
      splitOnChar_append _ _ _ (hslash_pad b),
      splitOnChar_no_sep _ _ (by rw [hy4]; decide)]
    simp
  have hne : s ≠ [] := by
    rw [hs]
    simp [pad2]
  have hy4fail : parseFld .y4 (pad2 a) = none := by
    show year4Tok (pad2 a) = none
    unfold year4Tok
    rw [if_neg]
    intro hcond
    exact absurd hcond.2 (by rw [pad2_length]; omega)
  have hc1 : parseCand ⟨.y4, .mo, .dy, '/'⟩ s = none := by
    unfold parseCand
    rw [show (⟨.y4, .mo, .dy, '/'⟩ : Cand).sep = '/' from rfl, hsplit]
    simp [hy4fail]
  have hsingle : ∀ f1 f2 f3 : Fld, ∀ sep : Char, sep ∉ s →
      parseCand ⟨f1, f2, f3, sep⟩ s = none := by
    intro f1 f2 f3 sep hmem
    unfold parseCand
    rw [show (⟨f1, f2, f3, sep⟩ : Cand).sep = sep from rfl,
      splitOnChar_no_sep _ _ hmem]
  have hc4 : parseCand ⟨.dy, .mo, .y4, '/'⟩ s = some ⟨2025, b, a⟩ := by
    unfold parseCand
    rw [show (⟨.dy, .mo, .y4, '/'⟩ : Cand).sep = '/' from rfl, hsplit]
    have hda : parseFld .dy (pad2 a) = some a :=
      numTok_pad2 (by omega) ha1 (by omega)
    have hmb : parseFld .mo (pad2 b) = some b :=
      numTok_pad2 (by omega) hb1 hb2
    have hyy : parseFld .y4 y4 = some 2025 := by rw [hy4]; decide
    simp only [hda, hmb, hyy]
    have hv : validYMD (assemble .y4 2025 (assemble .mo b (assemble .dy a ⟨1900, 1, 1⟩))) = true := by
      have h28 := daysInMonth_ge_28 2025 b
      simp only [assemble, validYMD, Bool.and_eq_true, decide_eq_true_eq]
      refine ⟨⟨⟨⟨⟨by omega, by omega⟩, by omega⟩, by omega⟩, by omega⟩, ?_⟩
      simpa using by omega
    simp only [hv, if_pos]
    rfl
  unfold normalize_date
  rw [norm_spaces_of_no_ws hnws]
  rw [if_neg (by simpa using hne)]
  rw [show candidates.findSome? (fun c => parseCand c s) = some ⟨2025, b, a⟩ by
    simp only [candidates, List.findSome?, hc1, hc4,
      hsingle .y4 .mo .dy '-' hdashmem, hsingle .y4 .mo .dy '.' hdotmem]]

/-! ## Helper lemmas: last-separator disambiguation -/

theorem rfindPos_nonneg_iff : ∀ (l : List Char) (c : Char),
    0 ≤ rfindPos l c ↔ c ∈ l := by
  intro l c
  induction l with
  | nil => simp [rfindPos]
  | cons x tl ih =>
    rw [rfindPos]
    by_cases h : 0 ≤ rfindPos tl c
    · simp only [ge_iff_le, if_pos h]
      constructor
      · intro _; exact List.mem_cons_of_mem _ (ih.mp h)
      · intro _; omega
    · simp only [ge_iff_le, if_neg h]
      by_cases hx : x = c
      · simp [hx]
      · rw [if_neg hx]
        constructor
        · intro habs; omega
        · intro hmem
          rcases List.mem_cons.mp hmem with he | hm
          · exact absurd he.symm hx
          · exact absurd (ih.mpr hm) h

theorem rfindPos_lt_length : ∀ (l : List Char) (c : Char),
    rfindPos l c < l.length := by
  intro l c
  induction l with
  | nil => simp [rfindPos]
  | cons x tl ih =>
    rw [rfindPos]
    simp only [List.length_cons]
    by_cases h : 0 ≤ rfindPos tl c
    · rw [if_pos (by omega : rfindPos tl c ≥ 0)]; omega
    · rw [if_neg (by omega : ¬ rfindPos tl c ≥ 0)]
      by_cases hx : x = c
      · rw [if_pos hx]; omega
      · rw [if_neg hx]; omega

theorem rfindPos_append_singleton : ∀ (xs : List Char) (a c : Char),
    rfindPos (xs ++ [a]) c =
      if a = c then (xs.length : Int) else rfindPos xs c := by
  intro xs
  induction xs with
  | nil =>
    intro a c
    by_cases h : a = c <;>
      simp [rfindPos, h]
  | cons x tl ih =>
    intro a c
    rw [List.cons_append, rfindPos, ih]
    by_cases h : a = c
    · rw [if_pos h, if_pos h]
      have h0 : (0 : Int) ≤ tl.length := by positivity
      rw [if_pos (by omega : (tl.length : Int) ≥ 0)]
      simp

    · rw [if_neg h, if_neg h, rfindPos]

/-- With both separators present, "the last comma is after the last
period" is the same as "the first separator of the reversed string is the
comma": the code's `rfind` comparison implements the spec's
last-separator rule. -/
theorem lastSep_compare : ∀ (l : List Char), ',' ∈ l → '.' ∈ l →
    (rfindPos l ',' > rfindPos l '.' ↔
      l.reverse.find? (fun c => c = ',' || c = '.') = some ',') := by
  intro l
  induction l using List.reverseRecOn with
  | nil => intro h; simp at h
  | append_singleton xs a ih =>
    intro h1 h2
    rw [List.reverse_append, List.reverse_cons, List.reverse_nil,
      List.nil_append, List.cons_append, List.nil_append]
    by_cases ha : a = ','
    · subst ha
      have hdot : '.' ∈ xs := by
        rcases List.mem_append.mp h2 with h | h
        · exact h
        · simp at h
      rw [List.find?]
      simp only [show ((',' : Char) = ',' || (',' : Char) = '.') = true by decide]
      rw [rfindPos_append_singleton, rfindPos_append_singleton]
      rw [if_pos rfl, if_neg (by decide)]
      have hlt := rfindPos_lt_length xs '.'
      constructor
      · intro _; rfl
      · intro _; omega
    · by_cases hb : a = '.'
      · subst hb
        have hcom : ',' ∈ xs := by
          rcases List.mem_append.mp h1 with h | h
          · exact h
          · simp at h
        rw [List.find?]
        simp only [show (('.' : Char) = ',' || ('.' : Char) = '.') = true by decide]
        rw [rfindPos_append_singleton, rfindPos_append_singleton]
        rw [if_neg (by decide), if_pos rfl]
        have hlt := rfindPos_lt_length xs ','
        constructor
        · intro habs; omega
        · intro habs; simp at habs
      · have hcom : ',' ∈ xs := by
          rcases List.mem_append.mp h1 with h | h
          · exact h
          · simp at h; exact absurd h.symm ha
        have hdot : '.' ∈ xs := by
          rcases List.mem_append.mp h2 with h | h
          · exact h
          · simp at h; exact absurd h.symm hb
        rw [List.find?]
        simp only [show ((a = ',' || a = '.')) = false by
          simp [ha, hb], Bool.false_eq_true]
        rw [rfindPos_append_singleton, rfindPos_append_singleton,
          if_neg (fun he => ha he), if_neg (fun he => hb he)]
        exact ih hcom hdot

/-- The separator-rewrite block of the code equals the spec's
last-separator rule whenever both separators occur. -/
theorem sepNormalize_eq_spec {l : List Char} (h1 : ',' ∈ l) (h2 : '.' ∈ l) :
    sepNormalize l = specLastSepRewrite l := by
  unfold sepNormalize specLastSepRewrite
  rw [if_pos ⟨h1, h2⟩]
  by_cases hgt : rfindPos l ',' > rfindPos l '.'
  · rw [if_pos hgt, (lastSep_compare l h1 h2).mp hgt]
    simp
  · rw [if_neg hgt]
    have hsome : ∃ x, l.reverse.find? (fun c => c = ',' || c = '.') = some x := by
      have : (l.reverse.find? (fun c => c = ',' || c = '.')).isSome := by
        rw [List.find?_isSome]
        exact ⟨'.', by simp [h2], by decide⟩
      exact Option.isSome_iff_exists.mp this
    obtain ⟨x, hx⟩ := hsome
    have hpx := List.find?_some hx
    have : x = ',' ∨ x = '.' := by
      rcases Bool.or_eq_true_iff.mp hpx with h | h
      · exact Or.inl (by simpa using h)
      · exact Or.inr (by simpa using h)
    rcases this with rfl | rfl
    · exact absurd ((lastSep_compare l h1 h2).mpr hx) hgt
    · rw [hx]
      simp

/-! ## Helper lemmas: decimal literals and quantization -/

theorem decLitUnsigned_int_frac {ip fr : List Char}
    (hip : ∀ c ∈ ip, c.isDigit = true) (hfr : ∀ c ∈ fr, c.isDigit = true)
    (hne : ip ≠ []) :
    decLitUnsigned (ip ++ '.' :: fr) =
      some ((digitsVal ip : ℚ) + (digitsVal fr : ℚ) / (10 : ℚ) ^ fr.length) := by
  obtain ⟨ht, hd⟩ := takeWhile_all_append ip '.' fr hip (by decide)
  unfold decLitUnsigned
  simp only [hd, ht]
  rw [if_pos ⟨trivial, List.all_eq_true.mpr hfr, Or.inl hne⟩]

theorem decLitUnsigned_int {ip : List Char}
    (hip : ∀ c ∈ ip, c.isDigit = true) (hne : ip ≠ []) :
    decLitUnsigned ip = some (digitsVal ip : ℚ) := by
  obtain ⟨ht, hd⟩ := takeWhile_of_all ip hip
  unfold decLitUnsigned
  simp only [hd, ht]
  rw [if_neg hne]

theorem roundHalfUp_intCast (n : ℤ) : roundHalfUp (n : ℚ) = n := by
  unfold roundHalfUp
  by_cases h : (0 : ℚ) ≤ (n : ℚ)
  · rw [if_pos h, add_comm, Int.floor_add_int]
    norm_num
  · rw [if_neg h]
    rw [show -(n : ℚ) = ((-n : ℤ) : ℚ) by push_cast; ring, add_comm,
      Int.floor_add_int]
    norm_num

theorem money2_cents (n : ℤ) : money2 ((n : ℚ) / 100) = (n : ℚ) / 100 := by
  unfold money2
  rw [div_mul_cancel₀ _ (by norm_num : (100 : ℚ) ≠ 0), roundHalfUp_intCast]

theorem money2_of_cents {q : ℚ} (h : Cents q) : money2 q = q := by
  obtain ⟨n, rfl⟩ := h
  exact money2_cents n

theorem cents_money2 (q : ℚ) : Cents (money2 q) := ⟨roundHalfUp (q * 100), rfl⟩

theorem cents_add {a b : ℚ} (ha : Cents a) (hb : Cents b) : Cents (a + b) := by
  obtain ⟨m, rfl⟩ := ha
  obtain ⟨n, rfl⟩ := hb
  exact ⟨m + n, by push_cast; ring⟩

theorem cents_sum : ∀ {l : List ℚ}, (∀ a ∈ l, Cents a) → Cents l.sum := by
  intro l
  induction l with
  | nil => intro _; exact ⟨0, by norm_num⟩
  | cons x tl ih =>
    intro h
    rw [List.sum_cons]
    exact cents_add (h x (List.mem_cons_self x tl))
      (ih (fun a ha => h a (List.mem_cons_of_mem _ ha)))

theorem foldl_money2_cents : ∀ (l : List ℚ) (o : ℚ), Cents o →
    (∀ a ∈ l, Cents a) →
    l.foldl (fun b a => money2 (b + a)) o = o + l.sum := by
  intro l
  induction l with
  | nil => intro o _ _; simp
  | cons x tl ih =>
    intro o ho h
    have hx : Cents x := h x (List.mem_cons_self x tl)
    rw [List.foldl_cons, money2_of_cents (cents_add ho hx),
      ih (o + x) (cents_add ho hx) (fun a ha => h a (List.mem_cons_of_mem _ ha)),
      List.sum_cons]
    ring

/-! ## Helper lemmas: stable sorting -/

theorem sortedInsert_perm {α : Type} (le : α → α → Bool) (a : α) :
    ∀ l : List α, (sortedInsert le a l).Perm (a :: l) := by
  intro l
  induction l with
  | nil => simp [sortedInsert]
  | cons b tl ih =>
    rw [sortedInsert]
    by_cases h : le a b
    · rw [if_pos h]
    · rw [if_neg h]
      exact (List.Perm.cons b ih).trans (List.Perm.swap a b tl)

theorem stableSort_perm {α : Type} (le : α → α → Bool) :
    ∀ l : List α, (stableSort le l).Perm l := by
  intro l
  induction l with
  | nil => simp [stableSort]
  | cons x tl ih =>
    rw [stableSort, List.foldr_cons]
    exact (sortedInsert_perm le x _).trans (List.Perm.cons x ih)

theorem sortedInsert_mem {α : Type} {le : α → α → Bool} {a x : α}
    {l : List α} (h : x ∈ sortedInsert le a l) : x = a ∨ x ∈ l := by
  have := (sortedInsert_perm le a l).mem_iff.mp h
  simpa using this

theorem sortedInsert_pairwise {α : Type} {le : α → α → Bool}
    (htrans : ∀ a b c, le a b = true → le b c = true → le a c = true)
    (htot : ∀ a b, le a b = true ∨ le b a = true) (a : α) :
    ∀ l : List α, List.Pairwise (fun x y => le x y = true) l →
      List.Pairwise (fun x y => le x y = true) (sortedInsert le a l) := by
  intro l
  induction l with
  | nil => intro _; simp [sortedInsert]
  | cons b tl ih =>
    intro h
    obtain ⟨hb, htl⟩ := List.pairwise_cons.mp h
    rw [sortedInsert]
    by_cases hab : le a b
    · rw [if_pos hab]
      refine List.pairwise_cons.mpr ⟨?_, h⟩
      intro x hx
      rcases List.mem_cons.mp hx with rfl | hx
      · exact hab
      · exact htrans a b x hab (hb x hx)
    · rw [if_neg hab]
      refine List.pairwise_cons.mpr ⟨?_, ih htl⟩
      intro x hx
      rcases sortedInsert_mem hx with he | hx
      · rcases htot a b with h' | h'
        · exact absurd h' hab
        · exact he.symm ▸ h'
      · exact hb x hx

theorem stableSort_pairwise {α : Type} {le : α → α → Bool}
    (htrans : ∀ a b c, le a b = true → le b c = true → le a c = true)
    (htot : ∀ a b, le a b = true ∨ le b a = true) :
    ∀ l : List α, List.Pairwise (fun x y => le x y = true) (stableSort le l) := by
  intro l
  induction l with
  | nil => simp [stableSort]
  | cons x tl ih =>
    rw [stableSort, List.foldr_cons]
    exact sortedInsert_pairwise htrans htot x _ ih

/-! ## Helper lemmas: the row order -/

theorem strLt_irrefl : ∀ x : List Char, strLt x x = false := by
  intro x
  induction x with
  | nil => rfl
  | cons a as' ih =>
    rw [strLt, if_neg (lt_irrefl _), if_neg (lt_irrefl _)]
    exact ih

theorem strLt_trans : ∀ x y z : List Char, strLt x y = true →
    strLt y z = true → strLt x z = true := by
  intro x
  induction x with
  | nil =>
    intro y z hxy hyz
    cases y with
    | nil => exact absurd hxy (by simp [strLt])
    | cons b bs =>
      cases z with
      | nil => exact absurd hyz (by simp [strLt])
      | cons c cs => simp [strLt]
  | cons a as' ih =>
    intro y z hxy hyz
    cases y with
    | nil => exact absurd hxy (by simp [strLt])
    | cons b bs =>
      cases z with
      | nil => exact absurd hyz (by simp [strLt])
      | cons c cs =>
        rw [strLt] at hxy hyz ⊢
        by_cases h1 : a.toNat < b.toNat
        · by_cases h2 : b.toNat < c.toNat
          · rw [if_pos (by omega)]
          · rw [if_neg h2] at hyz
            by_cases h3 : c.toNat < b.toNat
            · rw [if_pos h3] at hyz
              exact absurd hyz (by simp)
            · rw [if_pos (by omega)]
        · rw [if_neg h1] at hxy
          by_cases h1' : b.toNat < a.toNat
          · rw [if_pos h1'] at hxy
            exact absurd hxy (by simp)
          · rw [if_neg h1'] at hxy
            by_cases h2 : b.toNat < c.toNat
            · rw [if_pos (by omega)]
            · rw [if_neg h2] at hyz
              by_cases h3 : c.toNat < b.toNat
              · rw [if_pos h3] at hyz
                exact absurd hyz (by simp)
              · rw [if_neg h3] at hyz
                rw [if_neg (by omega), if_neg (by omega)]
                exact ih bs cs hxy hyz

theorem char_eq_of_toNat {a b : Char} (h : a.toNat = b.toNat) : a = b := by
  apply Char.ext
  exact UInt32.toNat.inj h

theorem strLt_antisymm : ∀ x y : List Char, strLt x y = false →
    strLt y x = false → x = y := by
  intro x
  induction x with
  | nil =>
    intro y hxy _
    cases y with
    | nil => rfl
    | cons b bs => exact absurd hxy (by simp [strLt])
  | cons a as' ih =>
    intro y hxy hyx
    cases y with
    | nil => exact absurd hyx (by simp [strLt])
    | cons b bs =>
      rw [strLt] at hxy hyx
      by_cases h1 : a.toNat < b.toNat
      · rw [if_pos h1] at hxy
        exact absurd hxy (by simp)
      · by_cases h2 : b.toNat < a.toNat
        · rw [if_pos h2] at hyx
          exact absurd hyx (by simp)
        · rw [if_neg h1, if_neg h2] at hxy
          rw [if_neg h2, if_neg h1] at hyx
          have hab : a = b := char_eq_of_toNat (by omega)
          rw [hab, ih bs hxy hyx]

theorem rowLe_total : ∀ a b : Row, rowLe a b = true ∨ rowLe b a = true := by
  intro a b
  unfold rowLe
  generalize (date_key a.date).1 = ra
  generalize (date_key b.date).1 = rb
  generalize (date_key a.date).2 = sa
  generalize (date_key b.date).2 = sb
  by_cases h1 : ra < rb
  · left; rw [if_pos h1]
  · by_cases h2 : rb < ra
    · right; rw [if_pos h2]
    · rw [if_neg h1, if_neg h2, if_neg h2, if_neg h1]
      by_cases h3 : strLt sa sb
      · left; rw [if_pos h3]
      · by_cases h4 : strLt sb sa
        · right; rw [if_pos h4]
        · rw [if_neg h3, if_neg h4, if_neg h4, if_neg h3]
          simp only [decide_eq_true_eq]
          omega

theorem rowLe_trans : ∀ a b c : Row, rowLe a b = true → rowLe b c = true →
    rowLe a c = true := by
  intro a b c
  unfold rowLe
  generalize (date_key a.date).1 = ra
  generalize (date_key b.date).1 = rb
  generalize (date_key c.date).1 = rc
  generalize (date_key a.date).2 = sa
  generalize (date_key b.date).2 = sb
  generalize (date_key c.date).2 = sc
  intro hab hbc
  by_cases h1 : ra < rb
  · by_cases h2 : rb < rc
    · rw [if_pos (by omega)]
    · rw [if_neg h2] at hbc
      by_cases h3 : rc < rb
      · rw [if_pos h3] at hbc
        exact absurd hbc (by simp)
      · rw [if_pos (by omega)]
  · rw [if_neg h1] at hab
    by_cases h1' : rb < ra
    · rw [if_pos h1'] at hab
      exact absurd hab (by simp)
    · rw [if_neg h1'] at hab
      by_cases h2 : rb < rc
      · rw [if_pos (by omega)]
      · rw [if_neg h2] at hbc
        by_cases h3 : rc < rb
        · rw [if_pos h3] at hbc
          exact absurd hbc (by simp)
        · rw [if_neg h3] at hbc
          rw [if_neg (by omega), if_neg (by omega)]
          by_cases h4 : strLt sa sb
          · by_cases h5 : strLt sb sc
            · rw [if_pos (strLt_trans sa sb sc h4 h5)]
            · rw [if_neg h5] at hbc
              by_cases h6 : strLt sc sb
              · rw [if_pos h6] at hbc
                exact absurd hbc (by simp)
              · have hsbc : sb = sc :=
                  strLt_antisymm sb sc (by simpa using h5) (by simpa using h6)
                rw [if_pos (hsbc ▸ h4)]
          · rw [if_neg h4] at hab
            by_cases h4' : strLt sb sa
            · rw [if_pos h4'] at hab
              exact absurd hab (by simp)
            · rw [if_neg h4'] at hab
              have hsab : sa = sb :=
                strLt_antisymm sa sb (by simpa using h4) (by simpa using h4')
              by_cases h5 : strLt sb sc
              · rw [if_pos (by rw [hsab]; exact h5)]
              · rw [if_neg h5] at hbc
                by_cases h6 : strLt sc sb
                · rw [if_pos h6] at hbc
                  exact absurd hbc (by simp)
                · rw [if_neg h6] at hbc
                  have hsbc : sb = sc :=
                    strLt_antisymm sb sc (by simpa using h5) (by simpa using h6)
                  rw [if_neg (by rw [hsab, hsbc]; simp [strLt_irrefl]),
                    if_neg (by rw [hsab, ← hsbc]; simp [strLt_irrefl])]
                  simp only [decide_eq_true_eq] at hab hbc ⊢
                  omega

/-! ## Helper lemmas: idempotence of whitespace normalization -/

theorem collapseWS_head : ∀ (rest : List Char) (c : Char), ∃ h t,
    collapseWS (c :: rest) = h :: t ∧ (isPySpace h = true → isPySpace c = true) := by
  intro rest
  induction rest with
  | nil =>
    intro c
    by_cases h : isPySpace c
    · exact ⟨' ', [], by simp [collapseWS, h], fun _ => h⟩
    · exact ⟨c, [], by simp [collapseWS, h], fun hc => hc⟩
  | cons c2 rest' ih =>
    intro c
    by_cases h12 : isPySpace c = true ∧ isPySpace c2 = true
    · obtain ⟨h, t, he, _⟩ := ih c2
      refine ⟨h, t, ?_, fun _ => h12.1⟩
      rw [collapseWS, if_pos (by simp [h12.1, h12.2]), he]
    · refine ⟨if isPySpace c then ' ' else c, collapseWS (c2 :: rest'), ?_, ?_⟩
      · rw [collapseWS, if_neg (by
          intro hcon
          rw [Bool.and_eq_true] at hcon
          exact h12 hcon)]
      · by_cases hc : isPySpace c
        · intro _; exact hc
        · rw [if_neg hc]; exact fun hcon => hcon

theorem collapseWS_wsp : ∀ l : List Char, WSP (collapseWS l) := by
  intro l
  induction l with
  | nil => intro c hc; simp [collapseWS] at hc
  | cons c tl ih =>
    cases tl with
    | nil =>
      intro x hx hws
      by_cases h : isPySpace c
      · simp [collapseWS, h] at hx; rw [hx]
      · simp [collapseWS, h] at hx
        rw [hx] at hws
        exact absurd hws (by simp [h])
    | cons c2 rest =>
      intro x hx hws
      by_cases h12 : isPySpace c = true ∧ isPySpace c2 = true
      · rw [collapseWS, if_pos (by simp [h12.1, h12.2])] at hx
        exact ih x hx hws
      · rw [collapseWS, if_neg (by
          intro hcon
          rw [Bool.and_eq_true] at hcon
          exact h12 hcon)] at hx
        rcases List.mem_cons.mp hx with he | hx
        · by_cases hc : isPySpace c
          · rw [he, if_pos hc]
          · rw [he, if_neg hc] at hws
            exact absurd hws hc
        · exact ih x hx hws

theorem collapseWS_noadj : ∀ l : List Char, NoAdj (collapseWS l) := by
  intro l
  induction l with
  | nil => simp [collapseWS, NoAdj]
  | cons c tl ih =>
    cases tl with
    | nil =>
      by_cases h : isPySpace c <;> simp [collapseWS, h, NoAdj]
    | cons c2 rest =>
      by_cases h12 : isPySpace c = true ∧ isPySpace c2 = true
      · rw [NoAdj, collapseWS, if_pos (by simp [h12.1, h12.2])]
        exact ih
      · rw [NoAdj, collapseWS, if_neg (by
          intro hcon
          rw [Bool.and_eq_true] at hcon
          exact h12 hcon)]
        obtain ⟨h, t, he, himp⟩ := collapseWS_head rest c2
        rw [he, List.chain'_cons]
        refine ⟨?_, he ▸ ih⟩
        intro ⟨hws1, hws2⟩
        have hc2 : isPySpace c2 = true := himp hws2
        by_cases hc : isPySpace c
        · exact h12 ⟨hc, hc2⟩
        · rw [if_neg hc] at hws1
          exact absurd hws1 (by simp [hc])

theorem collapseWS_of_clean : ∀ l : List Char, WSP l → NoAdj l →
    collapseWS l = l := by
  intro l
  induction l with
  | nil => intro _ _; rfl
  | cons c tl ih =>
    intro hw hn
    cases tl with
    | nil =>
      by_cases h : isPySpace c
      · rw [collapseWS, if_pos h, hw c (List.mem_cons_self c []) h]
      · rw [collapseWS, if_neg h]
    | cons c2 rest =>
      have hadj : ¬(isPySpace c = true ∧ isPySpace c2 = true) :=
        (List.chain'_cons.mp hn).1
      rw [collapseWS, if_neg (by
        intro hcon
        rw [Bool.and_eq_true] at hcon
        exact hadj hcon)]
      have htl : collapseWS (c2 :: rest) = c2 :: rest :=
        ih (fun x hx => hw x (List.mem_cons_of_mem _ hx)) (List.chain'_cons.mp hn).2
      rw [htl]
      by_cases hc : isPySpace c
      · rw [if_pos hc, hw c (List.mem_cons_self _ _) hc]
      · rw [if_neg hc]

theorem mem_pyStrip {x : Char} {l : List Char} (h : x ∈ pyStrip l) : x ∈ l := by
  unfold pyStrip at h
  rw [List.mem_reverse] at h
  have h1 := List.dropWhile_sublist (l := (l.dropWhile isPySpace).reverse) (p := isPySpace)
  have h2 := h1.mem h
  rw [List.mem_reverse] at h2
  exact (List.dropWhile_sublist _).mem h2

theorem dropWhile_head_false {p : Char → Bool} :
    ∀ (l : List Char) {c : Char} {t : List Char},
      List.dropWhile p l = c :: t → p c = false := by
  intro l
  induction l with
  | nil => intro c t h; simp at h
  | cons x tl ih =>
    intro c t h
    rw [List.dropWhile_cons] at h
    by_cases hx : p x
    · rw [if_pos hx] at h
      exact ih h
    · rw [if_neg hx] at h
      cases h
      simpa using hx

theorem dropWhile_of_head_false {p : Char → Bool} {l : List Char}
    (h : ∀ c ∈ l.head?, p c = false) : l.dropWhile p = l := by
  cases l with
  | nil => rfl
  | cons c tl =>
    simp only [List.head?_cons, Option.mem_some_iff] at h
    rw [List.dropWhile_cons, if_neg (by simp [h c rfl])]

theorem pyStrip_idem (l : List Char) : pyStrip (pyStrip l) = pyStrip l := by
  set f := l.dropWhile isPySpace with hf
  set m := f.reverse.dropWhile isPySpace with hm
  have hps : pyStrip l = m.reverse := rfl
  cases hmc : m with
  | nil =>
    rw [hps, hmc]
    simp [pyStrip]
  | cons c t =>
    -- last of m = last of f.reverse = head of f, which is non-whitespace
    have hlast : m.getLast? = f.reverse.getLast? := by
      conv_rhs => rw [← List.takeWhile_append_dropWhile isPySpace f.reverse]
      rw [List.getLast?_append_of_ne_nil _ (by rw [← hm, hmc]; simp)]
    have hflast : ∀ x ∈ m.getLast?, isPySpace x = false := by
      intro x hx
      rw [hlast, ← List.head?_reverse, List.reverse_reverse] at hx
      cases hfc : f with
      | nil => rw [hfc] at hx; simp at hx
      | cons y ys =>
        rw [hfc] at hx
        simp only [List.head?_cons, Option.mem_some_iff] at hx
        rw [← hx]
        exact dropWhile_head_false l (by rw [← hf]; exact hfc)
    have hstep1 : m.reverse.dropWhile isPySpace = m.reverse := by
      apply dropWhile_of_head_false
      intro c' hc'
      rw [List.head?_reverse] at hc'
      exact hflast c' hc'
    have hstep2 : m.dropWhile isPySpace = m := by
      apply dropWhile_of_head_false
      intro c' hc'
      rw [hmc] at hc'
      simp only [List.head?_cons, Option.mem_some_iff] at hc'
      rw [← hc']
      exact dropWhile_head_false f.reverse (by rw [← hm]; exact hmc)
    rw [hps]
    show ((m.reverse.dropWhile isPySpace).reverse.dropWhile isPySpace).reverse = m.reverse
    rw [hstep1, List.reverse_reverse, hstep2]

theorem pyStrip_wsp {l : List Char} (h : WSP l) : WSP (pyStrip l) :=
  fun c hc => h c (mem_pyStrip hc)

theorem noadj_reverse {l : List Char} (h : NoAdj l) : NoAdj l.reverse := by
  rw [NoAdj, List.chain'_reverse]
  exact List.Chain'.imp (fun a b hab => fun hc => hab ⟨hc.2, hc.1⟩) h

theorem noadj_dropWhile {p : Char → Bool} {l : List Char} (h : NoAdj l) :
    NoAdj (l.dropWhile p) := by
  rw [NoAdj] at h ⊢
  conv at h => rw [← List.takeWhile_append_dropWhile p l]
  exact (List.chain'_append.mp h).2.1

theorem pyStrip_noadj {l : List Char} (h : NoAdj l) : NoAdj (pyStrip l) := by
  unfold pyStrip
  exact noadj_reverse (noadj_dropWhile (noadj_reverse (noadj_dropWhile h)))

theorem replaceNbsp_of_no_nbsp :
    ∀ {l : List Char}, (∀ c ∈ l, c ≠ '\xa0') → replaceNbsp l = l := by
  intro l
  induction l with
  | nil => intro _; rfl
  | cons c tl ih =>
    intro h
    have hc : c ≠ '\xa0' := h c (List.mem_cons_self c tl)
    simp only [replaceNbsp, List.map_cons, if_neg hc]
    have := ih (fun x hx => h x (List.mem_cons_of_mem _ hx))
    simp only [replaceNbsp] at this
    rw [this]

theorem norm_spaces_idem (l : List Char) :
    norm_spaces (norm_spaces l) = norm_spaces l := by
  have hw : WSP (norm_spaces l) := pyStrip_wsp (collapseWS_wsp _)
  have hn : NoAdj (norm_spaces l) := pyStrip_noadj (collapseWS_noadj _)
  have hnb : replaceNbsp (norm_spaces l) = norm_spaces l := by
    apply replaceNbsp_of_no_nbsp
    intro c hc he
    have hws : isPySpace c = true := by rw [he]; decide
    have hsp := hw c hc hws
    rw [hsp] at he
    exact absurd he (by decide)
  have hcol : collapseWS (norm_spaces l) = norm_spaces l :=
    collapseWS_of_clean _ hw hn
  show pyStrip (collapseWS (replaceNbsp (norm_spaces l))) = norm_spaces l
  rw [hnb, hcol]
  exact pyStrip_idem _

/-! ## Helper lemmas: rendering and re-parsing amounts -/

theorem format2Int_eq (n : ℤ) :
    format2Int n = (if n < 0 then ['-'] else []) ++
      (natStr (n.natAbs / 100) ++ '.' :: pad2 (n.natAbs % 100)) := by
  simp [format2Int, List.append_assoc]

theorem format2Int_chars (n : ℤ) :
    ∀ c ∈ format2Int n, c.isDigit = true ∨ c = '-' ∨ c = '.' := by
  intro c hc
  rw [format2Int_eq] at hc
  rcases List.mem_append.mp hc with h | h
  · right; left
    by_cases hn : n < 0
    · rw [if_pos hn] at h; simpa using h
    · rw [if_neg hn] at h; simp at h
  · rcases List.mem_append.mp h with h | h
    · exact Or.inl ((natStr_ok _).1 c h)
    · rcases h with _ | ⟨_, h⟩
      · right; right; rfl
      · exact Or.inl (pad2_digits c h)

theorem parse_format2Int (n : ℤ) :
    parse_decimal (format2Int n) = some ((n : ℚ) / 100) := by
  have hchars := format2Int_chars n
  have hnws : ∀ c ∈ format2Int n, isPySpace c = false := by
    intro c hc
    rcases hchars c hc with h | h | h
    · exact (isDigit_facts h).1
    · rw [h]; decide
    · rw [h]; decide
  have hne : format2Int n ≠ [] := by
    rw [format2Int_eq]
    intro h
    rcases List.append_eq_nil.mp h with ⟨_, h2⟩
    rcases List.append_eq_nil.mp h2 with ⟨_, h3⟩
    simp at h3
  have hstrip : stripSymbols (format2Int n) = format2Int n := by
    unfold stripSymbols
    rw [List.filter_eq_self]
    intro c hc
    rcases hchars c hc with h | h | h
    · simp [h]
    · simp [h]
    · simp [h]
  have hnocomma : ',' ∉ format2Int n := by
    intro hmem
    rcases hchars ',' hmem with h | h | h
    · exact absurd h (by decide)
    · exact absurd h (by decide)
    · exact absurd h (by decide)
  have hsep : sepNormalize (format2Int n) = format2Int n := by
    unfold sepNormalize
    rw [if_neg (fun hcon => hnocomma hcon.1), if_neg hnocomma]
  have hval : decLitUnsigned (natStr (n.natAbs / 100) ++ '.' :: pad2 (n.natAbs % 100)) =
      some ((n.natAbs : ℚ) / 100) := by
    rw [decLitUnsigned_int_frac (natStr_ok _).1 pad2_digits (natStr_ok _).2.2]
    congr 1
    rw [(natStr_ok _).2.1, digitsVal_pad2 (Nat.mod_lt _ (by omega)), pad2_length]
    have hdm : 100 * (n.natAbs / 100) + n.natAbs % 100 = n.natAbs :=
      Nat.div_add_mod _ 100
    rw [show ((10 : ℚ) ^ 2 = 100) by norm_num]
    rw [show ((n.natAbs : ℚ)) = ((100 * (n.natAbs / 100) + n.natAbs % 100 : Nat) : ℚ) by
      rw [hdm]]
    push_cast
    ring
  have hdl : decLit (format2Int n) = some ((n : ℚ) / 100) := by
    by_cases hn : n < 0
    · rw [format2Int_eq, if_pos hn, List.singleton_append]
      rw [decLit]
      rw [if_pos rfl, hval]
      simp only [Option.map_some']
      congr 1
      rw [Int.cast_natAbs, abs_of_neg hn]
      push_cast
      ring
    · rw [format2Int_eq, if_neg hn, List.nil_append]
      obtain ⟨c, cs, hcs⟩ := List.exists_cons_of_ne_nil (natStr_ok (n.natAbs / 100)).2.2
      have hcd : c.isDigit = true := by
        apply (natStr_ok (n.natAbs / 100)).1
        rw [hcs]
        exact List.mem_cons_self c cs
      rw [hcs, List.cons_append, decLit,
        if_neg ((isDigit_facts hcd).2.2.1),
        if_neg ((isDigit_facts hcd).2.2.2.2.2.2),
        ← List.cons_append, ← hcs, hval]
      congr 1
      rw [Int.cast_natAbs, abs_of_nonneg (not_lt.mp hn)]
  unfold parse_decimal
  rw [pyStrip_of_no_ws hnws, if_neg hne, hstrip, hsep, hdl]

theorem format2Q_cents (n : ℤ) : format2Q ((n : ℚ) / 100) = format2Int n := by
  unfold format2Q
  rw [div_mul_cancel₀ _ (by norm_num : (100 : ℚ) ≠ 0), roundHalfUp_intCast]

/-! ## Helper lemmas: ledger operations and row identities -/

theorem reinsertRow_id (r : Row) : (reinsertRow r).id = r.id := rfl

theorem mem_sortRows_id {r' : Row} {l : List Row} (h : r' ∈ sortRows l) :
    r'.id ∈ l.map Row.id := by
  unfold sortRows at h
  obtain ⟨x, hx, he⟩ := List.mem_map.mp h
  have hxl : x ∈ l := (stableSort_perm rowLe l).mem_iff.mp hx
  exact List.mem_map.mpr ⟨x, hxl, by rw [← he, reinsertRow_id]⟩

theorem mem_insert_row {r' : Row} {rows : List Row} {d desc cat amt : List Char}
    {i : Nat} (h : r' ∈ insert_row rows d desc cat amt i) :
    r' ∈ rows ∨ r'.id = i := by
  unfold insert_row at h
  rcases List.mem_append.mp h with h | h
  · exact Or.inl h
  · simp at h
    right
    rw [h]

theorem importLoop_spec :
    ∀ (preview : List (List Char × List Char × ℚ)) (rows : List Row)
      (nid ok dup : Nat),
      nid ≤ (importLoop rows nid ok dup preview).2.1 ∧
      (∀ r' ∈ (importLoop rows nid ok dup preview).1,
        r' ∈ rows ∨ nid ≤ r'.id) ∧
      (importLoop rows nid ok dup preview).2.2.1 +
        (importLoop rows nid ok dup preview).2.2.2 =
        ok + dup + preview.length := by
  intro preview
  induction preview with
  | nil =>
    intro rows nid ok dup
    refine ⟨le_refl _, fun r' hr' => Or.inl hr', by simp [importLoop]⟩
  | cons p rest ih =>
    intro rows nid ok dup
    obtain ⟨d, desc, amt⟩ := p
    rw [importLoop]
    by_cases hdup : is_duplicate rows d desc [] amt
    · rw [if_pos hdup]
      obtain ⟨h1, h2, h3⟩ := ih rows nid ok (dup + 1)
      refine ⟨h1, h2, by rw [h3]; simp; omega⟩
    · rw [if_neg hdup]
      obtain ⟨h1, h2, h3⟩ :=
        ih (insert_row rows d desc [] (format2Q amt) nid) (nid + 1) (ok + 1) dup
      refine ⟨by omega, ?_, by rw [h3]; simp; omega⟩
      intro r' hr'
      rcases h2 r' hr' with h | h
      · rcases mem_insert_row h with h' | h'
        · exact Or.inl h'
        · right; omega
      · right; omega

theorem removeAt_subset {r' : Row} {l : List Row} {i : Nat}
    (h : r' ∈ removeAt l i) : r' ∈ l := by
  unfold removeAt at h
  rcases List.mem_append.mp h with h | h
  · exact (List.take_subset _ _) h
  · exact (List.drop_subset _ _) h

theorem foldl_removeAt_subset :
    ∀ (idxs : List Nat) (l : List Row) (r' : Row),
      r' ∈ idxs.foldl removeAt l → r' ∈ l := by
  intro idxs
  induction idxs with
  | nil => intro l r' h; exact h
  | cons i rest ih =>
    intro l r' h
    rw [List.foldl_cons] at h
    exact removeAt_subset (ih _ _ h)

theorem dupFold_spec :
    ∀ (idxs : List Nat) (src : List Row) (acc : List Row) (nid : Nat),
      nid ≤ (idxs.foldl
        (fun (p : List Row × Nat) i =>
          match src[i]? with
          | some row => (insert_row p.1 row.date row.desc row.cat row.amt p.2, p.2 + 1)
          | none => p) (acc, nid)).2 ∧
      ∀ r' ∈ (idxs.foldl
        (fun (p : List Row × Nat) i =>
          match src[i]? with
          | some row => (insert_row p.1 row.date row.desc row.cat row.amt p.2, p.2 + 1)
          | none => p) (acc, nid)).1, r' ∈ acc ∨ nid ≤ r'.id := by
  intro idxs
  induction idxs with
  | nil => intro src acc nid; exact ⟨le_refl _, fun r' hr' => Or.inl hr'⟩
  | cons i rest ih =>
    intro src acc nid
    rw [List.foldl_cons]
    cases hsrc : src[i]? with
    | none =>
      simp only [hsrc]
      exact ih src acc nid
    | some row =>
      simp only [hsrc]
      obtain ⟨h1, h2⟩ :=
        ih src (insert_row acc row.date row.desc row.cat row.amt nid) (nid + 1)
      refine ⟨by omega, ?_⟩
      intro r' hr'
      rcases h2 r' hr' with h | h
      · rcases mem_insert_row h with h' | h'
        · exact Or.inl h'
        · right; omega
      · right; omega

theorem loadLoop_spec :
    ∀ (srows : List SRow) (rows : List Row) (maxId : Nat),
      (∀ r ∈ rows, r.id ≤ maxId) →
      maxId ≤ (loadLoop rows maxId srows).2 ∧
      ∀ r ∈ (loadLoop rows maxId srows).1, r.id ≤ (loadLoop rows maxId srows).2 := by
  intro srows
  induction srows with
  | nil =>
    intro rows maxId h
    exact ⟨le_refl _, h⟩
  | cons sr rest ih =>
    intro rows maxId h
    rw [loadLoop]
    set rowId := if sr.id > 0 then sr.id else maxId + 1 with hrid
    have hinv : ∀ r ∈ insert_row rows
        (let c := normalize_date sr.date; if c = [] then sr.date else c)
        sr.desc sr.cat
        (format2Q (money2 ((parse_decimal sr.amt).getD 0))) rowId,
        r.id ≤ max maxId rowId := by
      intro r hr
      rcases mem_insert_row hr with h' | h'
      · exact le_trans (h r h') (le_max_left _ _)
      · rw [h']
        exact le_max_right _ _
    obtain ⟨h1, h2⟩ := ih _ (max maxId rowId) hinv
    exact ⟨le_trans (le_max_left _ _) h1, h2⟩

theorem add_current_row_outcome (s : St) (a b c d : List Char) (yes : Bool) :
    (add_current_row s a b c d yes).1 = s ∨
    ∃ dd de ca am, (add_current_row s a b c d yes).1 =
      { nextId := s.nextId + 1
        rows := sortRows (insert_row s.rows dd de ca am s.nextId)
        undoStack := (pushUndo s).undoStack
        redoStack := [] } := by
  simp only [add_current_row]
  split
  · left; rfl
  · split
    · left; rfl
    · split
      · left; rfl
      · split
        · left; rfl
        · right; exact ⟨_, _, _, _, rfl⟩

theorem paste_finish_outcome (s : St) (yes : Bool)
    (pr : PyResult (List (List Char × List Char × ℚ) × Nat × List Char))
    (res : St × List Prompt × Nat × Nat × Nat)
    (h : paste_finish s yes pr = .ok res) :
    (res.1 = s ∨ ∃ preview,
      res.1 = { nextId := (importLoop s.rows s.nextId 0 0 preview).2.1
                rows := sortRows (importLoop s.rows s.nextId 0 0 preview).1
                undoStack := (pushUndo s).undoStack
                redoStack := [] }) ∧
    Prompt.dupQuestion ∉ res.2.1 := by
  cases pr with
  | raised => exact PyResult.noConfusion h
  | ok p =>
    obtain ⟨preview, skipped, last⟩ := p
    rw [paste_finish] at h
    split at h
    · cases h
      exact ⟨Or.inl rfl, by simp⟩
    · split at h
      · cases h
        exact ⟨Or.inl rfl, by simp⟩
      · cases h
        exact ⟨Or.inr ⟨preview, rfl⟩, by simp⟩

theorem paste_import_outcome (s : St) (t c : List Char) (yes : Bool)
    (res : St × List Prompt × Nat × Nat × Nat)
    (h : paste_import s t c yes = .ok res) :
    (res.1 = s ∨ ∃ preview,
      res.1 = { nextId := (importLoop s.rows s.nextId 0 0 preview).2.1
                rows := sortRows (importLoop s.rows s.nextId 0 0 preview).1
                undoStack := (pushUndo s).undoStack
                redoStack := [] }) ∧
    Prompt.dupQuestion ∉ res.2.1 := by
  unfold paste_import at h
  split at h
  · cases h
    exact ⟨Or.inl rfl, by simp⟩
  · exact paste_finish_outcome s yes _ res h

theorem delete_selected_outcome (s : St) (sel : List Nat) (yes : Bool) :
    (delete_selected s sel yes).1 = s ∨
    ((delete_selected s sel yes).1.nextId = s.nextId ∧
      ∀ r' ∈ (delete_selected s sel yes).1.rows, r' ∈ s.rows) := by
  unfold delete_selected
  by_cases h1 : stableSort (fun a b => decide (b ≤ a))
      ((sel.eraseDups.filter (· < s.rows.length))) = []
  · left; rw [if_pos h1]
  · rw [if_neg h1]
    by_cases h2 : ¬yes = true
    · left; rw [if_pos h2]
    · rw [if_neg h2]
      right
      exact ⟨rfl, fun r' hr' => foldl_removeAt_subset _ _ _ hr'⟩

theorem duplicate_selected_outcome (s : St) (sel : List Nat) :
    (duplicate_selected s sel).1 = s ∨
    ∃ idxs : List Nat, (duplicate_selected s sel).1 =
      { nextId := (List.foldl
          (fun (p : List Row × Nat) i =>
            match s.rows[i]? with
            | some row => (insert_row p.1 row.date row.desc row.cat row.amt p.2, p.2 + 1)
            | none => p) (s.rows, s.nextId) idxs).2
        rows := sortRows (List.foldl
          (fun (p : List Row × Nat) i =>
            match s.rows[i]? with
            | some row => (insert_row p.1 row.date row.desc row.cat row.amt p.2, p.2 + 1)
            | none => p) (s.rows, s.nextId) idxs).1
        undoStack := (pushUndo s).undoStack
        redoStack := [] } := by
  unfold duplicate_selected
  by_cases h1 : stableSort (fun a b => decide (a ≤ b))
      ((sel.eraseDups.filter (· < s.rows.length))) = []
  · left; rw [if_pos h1]
  · rw [if_neg h1]
    right
    exact ⟨_, rfl⟩

theorem pd350 : parse_decimal "-3.50".data = some (-(7/2) : ℚ) := by
  show (if pyStrip "-3.50".data = [] then some 0
    else decLit (sepNormalize (stripSymbols (pyStrip "-3.50".data)))) = some (-(7/2) : ℚ)
  rw [show pyStrip "-3.50".data = "-3.50".data from by decide,
    if_neg (by decide),
    show sepNormalize (stripSymbols "-3.50".data) = "-3.50".data from by decide]
  rw [show ("-3.50".data : List Char) = '-' :: (['3'] ++ '.' :: ['5', '0']) from rfl]
  rw [decLit, if_pos rfl,
    decLitUnsigned_int_frac (by decide) (by decide) (by decide),
    show digitsVal ['3'] = 3 from by decide,
    show digitsVal ['5', '0'] = 50 from by decide]
  norm_num

theorem tpl350 : try_parse_line "2025-01-10,Coffee,-3.50".data =
    .ok (some ⟨"2025/01/10".data, "Coffee".data, money2 (-(7/2))⟩) := by
  simp only [try_parse_line,
    show pyStrip "2025-01-10,Coffee,-3.50".data = "2025-01-10,Coffee,-3.50".data from by decide,
    show csvSplit "2025-01-10,Coffee,-3.50".data =
      ["2025-01-10".data, "Coffee".data, "-3.50".data] from by decide]
  rw [if_neg (by decide), dif_pos (by decide)]
  simp only [List.getElem_cons_zero, List.getElem_cons_succ]
  rw [show normalize_date "2025-01-10".data = "2025/01/10".data from by decide]
  rw [if_pos (by decide), pd350]
  rw [show norm_spaces "Coffee".data = "Coffee".data from by decide]

theorem is_duplicate_r6 :
    is_duplicate [r6] "2025/01/10".data "Coffee".data [] (money2 (-(7/2))) = true := by
  simp only [is_duplicate, r6, List.any_cons, List.any_nil, Bool.or_false]
  rw [show parse_decimal ['-', '3', '.', '5', '0'] = some (-(7/2) : ℚ) from pd350]
  simp only [Option.getD_some]
  rfl

theorem tplL : try_parse_line
    ['2','0','2','5','-','0','1','-','1','0',',','C','o','f','f','e','e',',','-','3','.','5','0'] =
    .ok (some ⟨['2','0','2','5','/','0','1','/','1','0'], ['C','o','f','f','e','e'],
      money2 (-(7/2))⟩) := tpl350

theorem isdupL : is_duplicate [r6] ['2','0','2','5','/','0','1','/','1','0']
    ['C','o','f','f','e','e'] [] (money2 (-(7/2))) = true := is_duplicate_r6

theorem hlinesL : (splitOnChar '
' [] ['2','0','2','5','-','0','1','-','1','0',',','C','o','f','f','e','e',',','-','3','.','5','0']).filter
    (fun ln => pyStrip ln ≠ []) =
    [['2','0','2','5','-','0','1','-','1','0',',','C','o','f','f','e','e',',','-','3','.','5','0']] := by
  decide

theorem hbpL : buildPreview
    [['2','0','2','5','-','0','1','-','1','0',',','C','o','f','f','e','e',',','-','3','.','5','0']]
    [] [] 0 =
    .ok ([(['2','0','2','5','/','0','1','/','1','0'], ['C','o','f','f','e','e'],
      money2 (-(7/2)))], 0, ['2','0','2','5','/','0','1','/','1','0']) := by
  simp only [buildPreview, tplL]
  rfl

/-! ## The claims -/

/-- Claim C1 (code bug): the claim says `try_parse_line` never lets an
exception escape — every strategy fails over when its amount does not
parse.  In the code only the comma-separated and whitespace-token
strategies guard the amount parse; the tab-split and multi-space
strategies call `money2(parse_decimal(...))` outside any try/except, so a
tab- or double-space-separated line with a valid date and an unparseable
amount raises an uncaught `decimal.InvalidOperation` instead of yielding
no result.  The first two conjuncts evaluate the code at such failing
inputs; the last two show the guarded strategies do fail over as the
claim demands. -/
theorem claim_c1_bug :
    try_parse_line "01/02/2025\tdesc\tabc".data = PyResult.raised ∧
    try_parse_line "01/02/2025  desc  abc".data = PyResult.raised ∧
    try_parse_line "2025-01-10,Coffee,abc".data = PyResult.ok none ∧
    try_parse_line "01/02/2025 desc abc".data = PyResult.ok none := by
  refine ⟨by decide, by decide, by decide, by decide⟩

/-- Claim C4 (confirmed): `normalize_date` tries the candidate formats in
the fixed listed order and re-serializes the first calendar-valid parse;
in particular `01/02/2025` is read day-first as 2025-02-01,
`31-12-2025` as 2025-12-31, and `20251231` via the 8-digit fallback as
2025-12-31.  The last conjunct proves the day-first priority in general:
for every pair of two-digit fields that are both valid months, the
`%d/%m/%Y` candidate wins over `%m/%d/%Y`. -/
theorem claim_c4 :
    normalize_date "01/02/2025".data = "2025/02/01".data ∧
    normalize_date "31-12-2025".data = "2025/12/31".data ∧
    normalize_date "20251231".data = "2025/12/31".data ∧
    (∀ a b : Nat, 1 ≤ a → a ≤ 12 → 1 ≤ b → b ≤ 12 →
      normalize_date (pad2 a ++ ('/' :: (pad2 b ++ ('/' :: "2025".data)))) =
        fmtDate ⟨2025, b, a⟩) := by
  refine ⟨by decide, by decide, by decide, ?_⟩
  intro a b ha1 ha2 hb1 hb2
  exact normalize_date_day_first ha1 ha2 hb1 hb2

/-- Witness for C4: the day-first clause at the ambiguous `01/02/2025`. -/
theorem claim_c4_witness :
    normalize_date (pad2 1 ++ ('/' :: (pad2 2 ++ ('/' :: "2025".data)))) =
      fmtDate ⟨2025, 2, 1⟩ :=
  claim_c4.2.2.2 1 2 (by decide) (by decide) (by decide) (by decide)

/-- Claim C8 (code bug): `norm_spaces` is idempotent on every input
(first conjunct), but `normalize_date` is not idempotent on its own
output: on CPython/glibc `strftime("%Y")` does not zero-pad years below
1000, so `normalize_date "0005/01/02" = "5/01/02"`, which re-parses as
`%d/%m/%y` to `"2002/01/05"`.  The specification's canonical-form and
idempotence contracts make the intent clear; the unpadded year rendering
is the slip. -/
theorem claim_c8_bug :
    (∀ s : List Char, norm_spaces (norm_spaces s) = norm_spaces s) ∧
    normalize_date (normalize_date "0005/01/02".data) ≠
      normalize_date "0005/01/02".data ∧
    normalize_date "0005/01/02".data = "5/01/02".data ∧
    normalize_date "5/01/02".data = "2002/01/05".data := by
  refine ⟨norm_spaces_idem, by decide, by decide, by decide⟩

/-- Witness for C8: the idempotence clause at a concrete messy string. -/
theorem claim_c8_witness :
    norm_spaces (norm_spaces "  a \xa0 b  ".data) =
      norm_spaces "  a \xa0 b  ".data :=
  claim_c8_bug.1 "  a \xa0 b  ".data

/-- Claim C9 (code bug): the claim says every `normalize_date` output is
either empty or a zero-padded calendar-valid `YYYY/MM/DD` string.  The
embedding is total (so the no-exception part holds), but on CPython/glibc
the year is rendered without padding, so the accepted input `0005/01/02`
produces `5/01/02` — a non-empty output that is not of the zero-padded
canonical shape. -/
theorem claim_c9_bug :
    normalize_date "0005/01/02".data = "5/01/02".data ∧
    "5/01/02".data ≠ ([] : List Char) ∧
    ¬∃ v : YMD, validYMD v = true ∧ "5/01/02".data = zeroPadDate v := by
  refine ⟨by decide, by decide, ?_⟩
  rintro ⟨v, _, he⟩
  have hlen := congrArg List.length he
  simp [zeroPadDate, pad4, pad2] at hlen

/-- Claim C10 (confirmed): rendering a two-decimal amount with
`f"{...:.2f}"` and re-parsing it with `parse_decimal` followed by `money2`
is the identity, so storing amounts as formatted cell text never changes
a value.  Stated for every integer number of cents `n`: the cell text of
`n/100` is `format2Int n`, and parsing then re-quantizing that text gives
back exactly `n/100`. -/
theorem claim_c10 : ∀ n : ℤ,
    format2Q ((n : ℚ) / 100) = format2Int n ∧
    (parse_decimal (format2Int n)).map money2 = some ((n : ℚ) / 100) := by
  intro n
  refine ⟨format2Q_cents n, ?_⟩
  rw [parse_format2Int]
  simp only [Option.map_some']
  rw [money2_cents]

/-- Witness for C10 at n = -1234567 cents (-12345.67). -/
theorem claim_c10_witness :
    (parse_decimal (format2Int (-1234567))).map money2 =
      some ((( -1234567 : ℤ) : ℚ) / 100) :=
  (claim_c10 (-1234567)).2

/-- Claim C5 (code bug): the sort is indeed by the pair
`(date_key(date), id)` — the general conjuncts prove the sorted list is
pairwise ordered by that key, its ids are a permutation of the input's,
and the key order puts unparseable dates last with the id as tiebreak.
But the claim's "parseable dates order chronologically via the canonical
zero-padded string" fails: the canonical string of a year-5 date is the
unpadded `5/01/02` (first conjunct), and `date_key` re-parses it as
2002-01-05, so the row for year 5 (id 1) sorts after a 1990 row (id 2) —
anti-chronologically (second conjunct). -/
theorem claim_c5_bug :
    (normalize_date "0005/01/02".data = "5/01/02".data ∧
     (sortRows [⟨1, "5/01/02".data, "a".data, [], "0.00".data⟩,
                ⟨2, "1990/01/01".data, "b".data, [], "0.00".data⟩]).map Row.id =
       [2, 1]) ∧
    (∀ l : List Row,
      List.Pairwise (fun a b => rowLe a b = true) (stableSort rowLe l) ∧
      ((sortRows l).map Row.id).Perm (l.map Row.id)) ∧
    (∀ a b : Row, rowLe a b = true →
      (date_key a.date).1 ≤ (date_key b.date).1 ∧
      (date_key a.date = date_key b.date → a.id ≤ b.id)) := by
  refine ⟨⟨by decide, by decide⟩, ?_, ?_⟩
  · intro l
    refine ⟨stableSort_pairwise rowLe_trans rowLe_total l, ?_⟩
    have : (sortRows l).map Row.id = (stableSort rowLe l).map Row.id := by
      unfold sortRows
      rw [List.map_map]
      rfl
    rw [this]
    exact (stableSort_perm rowLe l).map Row.id
  · intro a b h
    unfold rowLe at h
    constructor
    · by_cases h1 : (date_key a.date).1 < (date_key b.date).1
      · omega
      · by_cases h2 : (date_key b.date).1 < (date_key a.date).1
        · rw [if_neg h1, if_pos h2] at h
          exact absurd h (by simp)
        · omega
    · intro hkey
      rw [hkey] at h
      rw [if_neg (lt_irrefl _), if_neg (lt_irrefl _), if_neg (by simp [strLt_irrefl]),
        if_neg (by simp [strLt_irrefl])] at h
      simpa using h

/-- Witness for C5: the tiebreak clause at two equal-key rows. -/
theorem claim_c5_witness :
    (date_key ("2025/01/01".data : List Char)).1 ≤
      (date_key ("2025/01/01".data : List Char)).1 :=
  (claim_c5_bug.2.2 ⟨1, "2025/01/01".data, [], [], []⟩
    ⟨2, "2025/01/01".data, [], [], []⟩ (by decide)).1

/-- Claim C2 (confirmed): when both `,` and `.` occur in the cleaned
amount string, `parse_decimal` follows the spec's last-separator rule
(the later separator becomes the decimal point, every occurrence of the
earlier one is removed); when only `,` occurs it is rewritten to the
decimal point; and the two standard examples parse to 1234.56. -/
theorem claim_c2 :
    (∀ l : List Char, ',' ∈ stripSymbols (pyStrip l) →
      '.' ∈ stripSymbols (pyStrip l) →
      parse_decimal l = decLit (specLastSepRewrite (stripSymbols (pyStrip l)))) ∧
    (∀ l : List Char, ',' ∈ stripSymbols (pyStrip l) →
      '.' ∉ stripSymbols (pyStrip l) →
      parse_decimal l =
        decLit ((stripSymbols (pyStrip l)).map (fun c => if c = ',' then '.' else c))) ∧
    parse_decimal "1,234.56".data = some (30864/25 : ℚ) ∧
    parse_decimal "1.234,56".data = some (30864/25 : ℚ) ∧
    parse_decimal "12,5".data = some (25/2 : ℚ) := by
  refine ⟨?_, ?_, ?_, ?_, ?_⟩
  · intro l h1 h2
    have hne : pyStrip l ≠ [] := by
      intro he
      rw [he] at h1
      exact absurd h1 (by decide)
    show (if pyStrip l = [] then some 0
      else decLit (sepNormalize (stripSymbols (pyStrip l)))) = _
    rw [if_neg hne, sepNormalize_eq_spec h1 h2]
  · intro l h1 h2
    have hne : pyStrip l ≠ [] := by
      intro he
      rw [he] at h1
      exact absurd h1 (by decide)
    show (if pyStrip l = [] then some 0
      else decLit (sepNormalize (stripSymbols (pyStrip l)))) = _
    rw [if_neg hne]
    unfold sepNormalize
    rw [if_neg (fun hc => h2 hc.2), if_pos h1]
  · show (if pyStrip "1,234.56".data = [] then some 0
      else decLit (sepNormalize (stripSymbols (pyStrip "1,234.56".data)))) = _
    rw [show pyStrip "1,234.56".data = "1,234.56".data from by decide,
      if_neg (by decide),
      show sepNormalize (stripSymbols "1,234.56".data) = "1234.56".data from by decide,
      show ("1234.56".data : List Char) = '1' :: (['2', '3', '4'] ++ '.' :: ['5', '6']) from rfl,
      decLit, if_neg (by decide), if_neg (by decide),
      show ('1' :: (['2', '3', '4'] ++ '.' :: ['5', '6']) : List Char) =
        ['1', '2', '3', '4'] ++ '.' :: ['5', '6'] from rfl,
      decLitUnsigned_int_frac (by decide) (by decide) (by decide),
      show digitsVal ['1', '2', '3', '4'] = 1234 from by decide,
      show digitsVal ['5', '6'] = 56 from by decide]
    norm_num
  · show (if pyStrip "1.234,56".data = [] then some 0
      else decLit (sepNormalize (stripSymbols (pyStrip "1.234,56".data)))) = _
    rw [show pyStrip "1.234,56".data = "1.234,56".data from by decide,
      if_neg (by decide),
      show sepNormalize (stripSymbols "1.234,56".data) = "1234.56".data from by decide,
      show ("1234.56".data : List Char) = '1' :: (['2', '3', '4'] ++ '.' :: ['5', '6']) from rfl,
      decLit, if_neg (by decide), if_neg (by decide),
      show ('1' :: (['2', '3', '4'] ++ '.' :: ['5', '6']) : List Char) =
        ['1', '2', '3', '4'] ++ '.' :: ['5', '6'] from rfl,
      decLitUnsigned_int_frac (by decide) (by decide) (by decide),
      show digitsVal ['1', '2', '3', '4'] = 1234 from by decide,
      show digitsVal ['5', '6'] = 56 from by decide]
    norm_num
  · show (if pyStrip "12,5".data = [] then some 0
      else decLit (sepNormalize (stripSymbols (pyStrip "12,5".data)))) = _
    rw [show pyStrip "12,5".data = "12,5".data from by decide,
      if_neg (by decide),
      show sepNormalize (stripSymbols "12,5".data) = "12.5".data from by decide,
      show ("12.5".data : List Char) = '1' :: (['2'] ++ '.' :: ['5']) from rfl,
      decLit, if_neg (by decide), if_neg (by decide),
      show ('1' :: (['2'] ++ '.' :: ['5']) : List Char) = ['1', '2'] ++ '.' :: ['5'] from rfl,
      decLitUnsigned_int_frac (by decide) (by decide) (by decide),
      show digitsVal ['1', '2'] = 12 from by decide,
      show digitsVal ['5'] = 5 from by decide]
    norm_num

/-- Witness for C2: the last-separator clause at `1,234.56`. -/
theorem claim_c2_witness :
    parse_decimal "1,234.56".data =
      decLit (specLastSepRewrite (stripSymbols (pyStrip "1,234.56".data))) :=
  claim_c2.1 "1,234.56".data (by decide) (by decide)

/-- Counterexample for C3: with opening balance 0.005 (a half cent, as
`parse_decimal` can return for typed text) and one two-decimal row of
-0.01, the code's fold gives `money2(0.005) - 0.01 = 0.00`, while the
claim's `round_money(opening + sum)` gives `round_money(-0.005) = -0.01`:
half-up rounding of the tie does not commute with adding the amounts. -/
theorem claim_c3_counterexample :
    runningFinal (1/200) [-(1/100)] ≠ money2 ((1/200) + (-(1/100))) := by
  have hpos : roundHalfUp (1/2 : ℚ) = 1 := by
    unfold roundHalfUp
    rw [if_pos (by norm_num), show (1/2 + 1/2 : ℚ) = 1 by norm_num]
    exact Int.floor_one
  have hneg : roundHalfUp (-(1/2) : ℚ) = -1 := by
    unfold roundHalfUp
    rw [if_neg (by norm_num), show (-(-(1/2) : ℚ) + 1/2 : ℚ) = 1 by norm_num]
    rw [Int.floor_one]
  have h1 : money2 (1/200 : ℚ) = 1/100 := by
    unfold money2
    rw [show ((1:ℚ)/200 * 100) = 1/2 by norm_num, hpos]
    norm_num
  have h2 : runningFinal (1/200) [-(1/100)] = 0 := by
    unfold runningFinal
    rw [List.foldl_cons, List.foldl_nil, h1,
      show ((1:ℚ)/100 + -(1/100)) = ((0 : ℤ) : ℚ)/100 by norm_num,
      money2_cents]
    norm_num
  have h3 : money2 ((1/200) + (-(1/100)) : ℚ) = -(1/100) := by
    unfold money2
    rw [show (((1:ℚ)/200 + -(1/100)) * 100) = -(1/2) by norm_num, hneg]
    norm_num
  rw [h2, h3]
  norm_num

/-- Claim C3 as amended (the opening balance is quantized before
accumulation): for every opening balance and every list of two-decimal
quantized amounts, the final running balance equals
`round_money(round_money(opening) + sum)`, and it is invariant under any
permutation of the amounts (so insertion order never matters). -/
theorem claim_c3 : ∀ (o : ℚ) (l : List ℚ), (∀ a ∈ l, Cents a) →
    runningFinal o l = money2 (money2 o + l.sum) ∧
    ∀ l' : List ℚ, l.Perm l' → runningFinal o l = runningFinal o l' := by
  intro o l hc
  have hfold : runningFinal o l = money2 o + l.sum :=
    foldl_money2_cents l (money2 o) (cents_money2 o) hc
  constructor
  · rw [hfold, money2_of_cents (cents_add (cents_money2 o) (cents_sum hc))]
  · intro l' hperm
    have hc' : ∀ a ∈ l', Cents a := fun a ha => hc a (hperm.mem_iff.mpr ha)
    have hfold' : runningFinal o l' = money2 o + l'.sum :=
      foldl_money2_cents l' (money2 o) (cents_money2 o) hc'
    rw [hfold, hfold', hperm.sum_eq]

/-- Witness for C3 at opening 0.005 and amounts [0.01, 0.02] vs their
swap. -/
theorem claim_c3_witness :
    runningFinal (1/200) [1/100, 2/100] =
      money2 (money2 (1/200) + ([1/100, 2/100] : List ℚ).sum) ∧
    runningFinal (1/200) [1/100, 2/100] = runningFinal (1/200) [2/100, 1/100] := by
  have hc : ∀ a ∈ ([1/100, 2/100] : List ℚ), Cents a := by
    intro a ha
    simp at ha
    rcases ha with rfl | rfl
    · exact ⟨1, by norm_num⟩
    · exact ⟨2, by norm_num⟩
  obtain ⟨h1, h2⟩ := claim_c3 (1/200) [1/100, 2/100] hc
  exact ⟨h1, h2 [2/100, 1/100] (List.Perm.swap _ _ _)⟩

/-- Counterexample for C7: undo restores the snapshot's counter, which
decreases it.  After one row add from the initial state the counter is 2
(and the row got id 1); a single undo brings the counter back to 1, so a
later add would reassign id 1. -/
theorem claim_c7_counterexample :
    nextIdOf (runOps [Op.add "2025/01/02".data "a".data [] "5".data true] initSt) = 2 ∧
    rowIdsOf (runOps [Op.add "2025/01/02".data "a".data [] "5".data true] initSt) = [1] ∧
    nextIdOf (runOps [Op.add "2025/01/02".data "a".data [] "5".data true, Op.undo]
      initSt) = 1 := by
  refine ⟨by decide, by decide, by decide⟩

/-- Claim C7 as amended: across row add, bulk paste import, delete and
duplicate, the next-identity counter never decreases and every row of the
resulting table either keeps an id the table already had or gets a fresh
id at or above the old counter (so those operations never reuse or
renumber an id); undo, redo and session load instead replace the counter
with the snapshot's or file's value — for a session load the counter
still ends strictly above every loaded row id. -/
theorem claim_c7 :
    (∀ (s : St) (op : Op), nonRestoring op → ∀ s', step op s = .ok s' →
      s.nextId ≤ s'.nextId ∧
      ∀ r' ∈ s'.rows, r'.id ∈ s.rows.map Row.id ∨ s.nextId ≤ r'.id) ∧
    (∀ (s : St) (data : Session), ∀ r' ∈ (load_session s data).rows,
      r'.id < (load_session s data).nextId) := by
  constructor
  · intro s op hop s' h
    cases op with
    | add a b c d yes =>
      simp only [step] at h
      cases h
      rcases add_current_row_outcome s a b c d yes with he | ⟨dd, de, ca, am, he⟩
      · rw [he]
        exact ⟨le_refl _, fun r' hr' => Or.inl (List.mem_map_of_mem Row.id hr')⟩
      · rw [he]
        refine ⟨by simp, ?_⟩
        intro r' hr'
        simp only at hr'
        obtain ⟨x, hx, hxe⟩ := List.mem_map.mp (mem_sortRows_id hr')
        rcases mem_insert_row hx with h' | h'
        · exact Or.inl (List.mem_map.mpr ⟨x, h', hxe⟩)
        · right
          rw [← hxe, h']
    | paste t c yes =>
      simp only [step] at h
      cases hp : paste_import s t c yes with
      | raised => rw [hp] at h; exact PyResult.noConfusion h
      | ok res =>
        rw [hp] at h
        cases h
        rcases (paste_import_outcome s t c yes res hp).1 with he | ⟨preview, he⟩
        · rw [he]
          exact ⟨le_refl _, fun r' hr' => Or.inl (List.mem_map_of_mem Row.id hr')⟩
        · rw [he]
          obtain ⟨h1, h2, _⟩ := importLoop_spec preview s.rows s.nextId 0 0
          refine ⟨h1, ?_⟩
          intro r' hr'
          simp only at hr'
          obtain ⟨x, hx, hxe⟩ := List.mem_map.mp (mem_sortRows_id hr')
          rcases h2 x hx with h' | h'
          · exact Or.inl (List.mem_map.mpr ⟨x, h', hxe⟩)
          · right
            rw [← hxe]
            exact h'
    | delete sel yes =>
      simp only [step] at h
      cases h
      rcases delete_selected_outcome s sel yes with he | ⟨he1, he2⟩
      · rw [he]
        exact ⟨le_refl _, fun r' hr' => Or.inl (List.mem_map_of_mem Row.id hr')⟩
      · rw [he1]
        exact ⟨le_refl _, fun r' hr' =>
          Or.inl (List.mem_map_of_mem Row.id (he2 r' hr'))⟩
    | dup sel =>
      simp only [step] at h
      cases h
      rcases duplicate_selected_outcome s sel with he | ⟨idxs, he⟩
      · rw [he]
        exact ⟨le_refl _, fun r' hr' => Or.inl (List.mem_map_of_mem Row.id hr')⟩
      · rw [he]
        obtain ⟨h1, h2⟩ := dupFold_spec idxs s.rows s.rows s.nextId
        refine ⟨h1, ?_⟩
        intro r' hr'
        simp only at hr'
        obtain ⟨x, hx, hxe⟩ := List.mem_map.mp (mem_sortRows_id hr')
        rcases h2 x hx with h' | h'
        · exact Or.inl (List.mem_map.mpr ⟨x, h', hxe⟩)
        · right
          rw [← hxe]
          exact h'
    | undo => exact absurd hop (by simp [nonRestoring])
    | redo => exact absurd hop (by simp [nonRestoring])
    | load data => exact absurd hop (by simp [nonRestoring])
  · intro s data r' hr'
    obtain ⟨h1, h2⟩ := loadLoop_spec data.rows [] 0 (by simp)
    unfold load_session at hr' ⊢
    simp only [pushUndo] at hr' ⊢
    obtain ⟨x, hx, hxe⟩ := List.mem_map.mp (mem_sortRows_id hr')
    have hid : r'.id ≤ (loadLoop [] 0 data.rows).2 := by
      rw [← hxe]
      exact h2 x hx
    have : (loadLoop [] 0 data.rows).2 <
        max (if data.fileNext = 0 then (loadLoop [] 0 data.rows).2 + 1
          else data.fileNext) ((loadLoop [] 0 data.rows).2 + 1) := by
      have := le_max_right (if data.fileNext = 0 then (loadLoop [] 0 data.rows).2 + 1
        else data.fileNext) ((loadLoop [] 0 data.rows).2 + 1)
      omega
    omega

/-- Witness for C7: the non-restoring clause at a concrete delete on the
initial state, and the load clause at a one-row session file. -/
theorem claim_c7_witness :
    initSt.nextId ≤ initSt.nextId ∧
    ∀ r' ∈ (load_session initSt ⟨0, [⟨7, "2025/01/01".data, "a".data, [], "1.00".data⟩]⟩).rows,
      r'.id < (load_session initSt ⟨0, [⟨7, "2025/01/01".data, "a".data, [], "1.00".data⟩]⟩).nextId := by
  refine ⟨?_, ?_⟩
  · exact (claim_c7.1 initSt (Op.delete [5] false) trivial initSt (by decide)).1
  · exact claim_c7.2 initSt ⟨0, [⟨7, "2025/01/01".data, "a".data, [], "1.00".data⟩]⟩

/-- Counterexample for C6: pasting one line that duplicates the existing
coffee row, with the batch import confirmed, silently skips the row — the
only prompt shown is the batch preview question, the counts report one
duplicate skipped and nothing imported, and the table still holds only the
original row. -/
theorem claim_c6_counterexample :
    pastePrompts (paste_import st6 "2025-01-10,Coffee,-3.50".data [] true) =
      [Prompt.importPreview] ∧
    pasteCounts (paste_import st6 "2025-01-10,Coffee,-3.50".data [] true) = (0, 1, 0) ∧
    pasteRowIds (paste_import st6 "2025-01-10,Coffee,-3.50".data [] true) = [1] := by
  have hres : paste_import st6 "2025-01-10,Coffee,-3.50".data [] true =
      .ok ({ nextId := 2
             rows := sortRows [r6]
             undoStack := [(1, []), (2, [r6])]
             redoStack := [] },
           [Prompt.importPreview], 0, 1, 0) := by
    simp only [paste_import]
    rw [if_neg (by decide)]
    rw [hlinesL]
    rw [show (if pyStrip ([] : List Char) ≠ [] then normalize_date [] else []) = []
      from by decide]
    rw [hbpL]
    simp only [paste_finish]
    rw [show (pushUndo st6).rows = [r6] from by decide,
        show (pushUndo st6).nextId = 2 from by decide,
        show (pushUndo st6).undoStack = [(1, []), (2, [r6])] from by decide,
        show (pushUndo st6).redoStack = ([] : List Snap) from by decide]
    simp only [importLoop]
    rw [if_pos isdupL]
    rfl
  rw [hres]
  refine ⟨rfl, rfl, ?_⟩
  show ((stableSort rowLe [r6]).map reinsertRow).map Row.id = [1]
  rw [show stableSort rowLe [r6] = [r6] from rfl]
  simp [reinsertRow_id, r6]

/-- Claim C6 as amended: duplicate detection only warns on the single-row
add path — whenever the entered row parses and matches an existing row the
duplicate question is asked, the row is dropped exactly when the operator
declines, and on acceptance the flagged row is inserted with the next
fresh id and the counter advances.  On the bulk paste path, however, the
duplicate question is never asked: after the one batch-level preview
confirmation every preview row is either inserted or silently counted as
a skipped duplicate. -/
theorem claim_c6 :
    (∀ (s : St) (a b c d : List Char) (yes : Bool) (q : ℚ),
      normalize_date (pyStrip a) ≠ [] → norm_spaces b ≠ [] →
      parse_decimal (pyStrip d) = some q →
      is_duplicate s.rows (normalize_date (pyStrip a)) (norm_spaces b)
        (norm_spaces c) (money2 q) = true →
      Prompt.dupQuestion ∈ (add_current_row s a b c d yes).2 ∧
      (yes = false → (add_current_row s a b c d yes).1 = s) ∧
      (yes = true →
        (add_current_row s a b c d yes).1.rows =
          sortRows (insert_row s.rows (normalize_date (pyStrip a))
            (norm_spaces b) (norm_spaces c) (format2Q (money2 q)) s.nextId) ∧
        (add_current_row s a b c d yes).1.nextId = s.nextId + 1)) ∧
    (∀ (s : St) (t c : List Char) (yes : Bool)
      (res : St × List Prompt × Nat × Nat × Nat),
      paste_import s t c yes = .ok res → Prompt.dupQuestion ∉ res.2.1) ∧
    (∀ (rows : List Row) (nid : Nat)
      (preview : List (List Char × List Char × ℚ)),
      (importLoop rows nid 0 0 preview).2.2.1 +
        (importLoop rows nid 0 0 preview).2.2.2 = preview.length) := by
  refine ⟨?_, ?_, ?_⟩
  · intro s a b c d yes q hd hde hq hdup
    simp only [add_current_row, hq, if_neg hd, if_neg hde, hdup]
    cases yes with
    | true =>
      rw [if_neg (by simp)]
      exact ⟨by simp, by simp, fun _ => ⟨rfl, rfl⟩⟩
    | false =>
      rw [if_pos (by simp)]
      exact ⟨by simp, fun _ => rfl, by simp⟩
  · intro s t c yes res h
    exact (paste_import_outcome s t c yes res h).2
  · intro rows nid preview
    have h := (importLoop_spec preview rows nid 0 0).2.2
    simpa using h

/-- Witness for C6: the add path at the concrete duplicate coffee entry
with the operator accepting — the duplicate question is asked and the
flagged row is inserted with the fresh id 2, the counter advancing to 3. -/
theorem claim_c6_witness :
    Prompt.dupQuestion ∈ (add_current_row st6 "2025/01/10".data "Coffee".data []
      "-3.50".data true).2 ∧
    (true = false → (add_current_row st6 "2025/01/10".data "Coffee".data []
      "-3.50".data true).1 = st6) ∧
    (true = true →
      (add_current_row st6 "2025/01/10".data "Coffee".data []
        "-3.50".data true).1.rows =
        sortRows (insert_row st6.rows (normalize_date (pyStrip "2025/01/10".data))
          (norm_spaces "Coffee".data) (norm_spaces [])
          (format2Q (money2 (-(7/2)))) st6.nextId) ∧
      (add_current_row st6 "2025/01/10".data "Coffee".data []
        "-3.50".data true).1.nextId = st6.nextId + 1) :=
  claim_c6.1 st6 "2025/01/10".data "Coffee".data [] "-3.50".data true (-(7/2))
    (by decide) (by decide)
    (by rw [show pyStrip "-3.50".data = "-3.50".data from by decide]; exact pd350)
    (by
      rw [show st6.rows = [r6] from rfl,
          show normalize_date (pyStrip "2025/01/10".data) = "2025/01/10".data from by decide,
          show norm_spaces "Coffee".data = "Coffee".data from by decide,
          show norm_spaces ([] : List Char) = [] from by decide]
      exact is_duplicate_r6)

end CSVEditor
